import Mathlib

set_option maxRecDepth 4000

/-!
Verification development for the `fone` Pakistani phone number library.
The definitions below are a shallow embedding of the TypeScript sources:
`src/utils/digit-utils.ts` (sanitizer, safety filter, normalizer),
`src/data/patterns.ts` (regexes, modelled as explicit matchers),
`src/data/operators.ts` (carrier table), `src/utils/phone-utils.ts`,
`src/core/validators.ts`, `src/core/formatters.ts`, `src/core/operators.ts`
and `src/utils/helpers.ts`. Strings are modelled as `String` / `List Char`;
JavaScript regexes are modelled by equivalent deterministic matchers
(the character classes involved are disjoint, so greedy matching without
backtracking is exact).
-/

/-- Interval test on naturals, used to express regex character classes. -/
def inRange (a b n : Nat) : Bool := decide (a ≤ n) && decide (n ≤ b)

/-- ASCII digit 0-9. -/
def isAsciiDigit (c : Char) : Bool := inRange 48 57 c.toNat

/-- JavaScript regex whitespace class (the set matched by / s/ and trimmed
by String.prototype.trim): tab..CR, space, NBSP, and the Unicode spaces. -/
def jsWS (c : Char) : Bool :=
  let n := c.toNat
  inRange 9 13 n || n == 32 || n == 160 || n == 5760 || inRange 8192 8202 n ||
    n == 8232 || n == 8233 || n == 8239 || n == 8287 || n == 12288 || n == 65279

/-- Characters removed by the sanitizer's bidi/zero-width strip:
U+202A-U+202E and U+200B-U+200D. -/
def isZW (c : Char) : Bool :=
  inRange 8203 8205 c.toNat || inRange 8234 8238 c.toNat

/-- Characters removed by PATTERNS.CLEAN.FORMATTING = [ s-.() \ _]. -/
def isFmtChar (c : Char) : Bool :=
  jsWS c || c.toNat == 45 || c.toNat == 46 || c.toNat == 40 || c.toNat == 41 ||
    c.toNat == 92 || c.toNat == 95

/-- Characters kept by PATTERNS.CLEAN.NON_DIGITS = [^ d+]: digits and plus. -/
def isDigitPlus (c : Char) : Bool := isAsciiDigit c || c.toNat == 43

/-- ASCII-only lower casing on code points, the canonicalization used by
case-insensitive JS regexes over ASCII pattern characters. -/
def lowN (c : Char) : Nat :=
  if 65 ≤ c.toNat ∧ c.toNat ≤ 90 then c.toNat + 32 else c.toNat

/-- JS regex word character class [A-Za-z0-9_]. -/
def isWordChar (c : Char) : Bool :=
  inRange 48 57 c.toNat || inRange 65 90 c.toNat || inRange 97 122 c.toNat || c.toNat == 95

/-- URDU_DIGITS.TO_ENGLISH as a character map: U+06F0..U+06F9 to ASCII. -/
def urduToEnglishChar (c : Char) : Char :=
  if 1776 ≤ c.toNat ∧ c.toNat ≤ 1785 then Char.ofNat (c.toNat - 1776 + 48) else c

/-- URDU_DIGITS.TO_URDU as a character map: ASCII digit to U+06F0..U+06F9. -/
def englishToUrduChar (c : Char) : Char :=
  if 48 ≤ c.toNat ∧ c.toNat ≤ 57 then Char.ofNat (c.toNat - 48 + 1776) else c

/-- urduToEnglishDigits from digit-utils.ts. -/
def urduToEnglishDigits (s : String) : String :=
  if s.data.isEmpty then "" else ⟨s.data.map urduToEnglishChar⟩

/-- englishToUrduDigits from digit-utils.ts. -/
def englishToUrduDigits (s : String) : String :=
  if s.data.isEmpty then "" else ⟨s.data.map englishToUrduChar⟩

/-- normalizeDigits from digit-utils.ts (delegates to urduToEnglishDigits). -/
def normalizeDigits (s : String) : String :=
  if s.data.isEmpty then "" else urduToEnglishDigits s

/-- Both-ends whitespace trim, the model of String.prototype.trim. -/
def trimL (l : List Char) : List Char :=
  ((l.dropWhile jsWS).reverse.dropWhile jsWS).reverse

/-- One step of the MULTIPLE_SPACES = / s\x7b2,\x7d/g collapse: a run of two or
more whitespace characters becomes a single space, a single whitespace
character is kept as is. Fuel-driven so that the kernel can evaluate it;
each step shortens the list by one, so fuel = length suffices. -/
def collapseGo : Nat → List Char → List Char
  | _, [] => []
  | _, [c] => [c]
  | 0, l => l
  | fuel + 1, c1 :: c2 :: rest =>
    if jsWS c1 && jsWS c2 then collapseGo fuel (' ' :: rest)
    else c1 :: collapseGo fuel (c2 :: rest)

/-- Collapse runs of two or more whitespace characters into one space. -/
def collapseWS (l : List Char) : List Char := collapseGo l.length l

/-- sanitizePhoneInput from digit-utils.ts, on character lists:
trim, transliterate Urdu digits, strip bidi/zero-width characters,
collapse whitespace runs, truncate to 30 characters. -/
def sanitizeL (l : List Char) : List Char :=
  if l.isEmpty then []
  else (collapseWS (((trimL l).map urduToEnglishChar).filter (fun c => !(isZW c)))).take 30

/-- sanitizePhoneInput on strings. -/
def sanitizePhoneInput (s : String) : String := ⟨sanitizeL s.data⟩

/-- Case-insensitive literal prefix test at the current position
(pattern first, then input). -/
def ciStart : List Char → List Char → Bool
  | [], _ => true
  | _ :: _, [] => false
  | p :: ps, c :: cs => (lowN c == lowN p) && ciStart ps cs

/-- Matcher for the regex fragment / s*=/ at the current position. -/
def eqAfterWS : List Char → Bool
  | [] => false
  | c :: rest => if c.toNat == 61 then true else if jsWS c then eqAfterWS rest else false

/-- After at least one word character was consumed: / w* s*=/. -/
def wordThenEq : List Char → Bool
  | [] => false
  | c :: rest => if isWordChar c then wordThenEq rest else eqAfterWS (c :: rest)

/-- Matcher for /on w+ s*=/i at the current position. -/
def onHandlerAt : List Char → Bool
  | c1 :: c2 :: c3 :: rest =>
    (lowN c1 == 111) && (lowN c2 == 110) && isWordChar c3 && wordThenEq rest
  | _ => false

/-- Matcher for /style s*=/i at the current position. -/
def styleAt : List Char → Bool
  | c1 :: c2 :: c3 :: c4 :: c5 :: rest =>
    (lowN c1 == 115) && (lowN c2 == 116) && (lowN c3 == 121) && (lowN c4 == 108) &&
      (lowN c5 == 101) && eqAfterWS rest
  | _ => false

/-- One of the eleven problematic patterns of isSafePhoneInput matches at
the current position. -/
def badPatAt (l : List Char) : Bool :=
  ciStart ['<', 's', 'c', 'r', 'i', 'p', 't'] l ||
    ciStart ['j', 'a', 'v', 'a', 's', 'c', 'r', 'i', 'p', 't', ':'] l ||
    onHandlerAt l ||
    ciStart ['e', 'v', 'a', 'l', '('] l ||
    ciStart ['e', 'x', 'p', 'r', 'e', 's', 's', 'i', 'o', 'n', '('] l ||
    ciStart ['d', 'a', 't', 'a', ':'] l ||
    ciStart ['v', 'b', 's', 'c', 'r', 'i', 'p', 't', ':'] l ||
    ciStart ['&', '#'] l ||
    ciStart ['&', 'l', 't', ';'] l ||
    ciStart ['&', 'g', 't', ';'] l ||
    styleAt l

/-- Some problematic pattern matches somewhere in the string. -/
def badPatHit : List Char → Bool
  | [] => false
  | c :: rest => badPatAt (c :: rest) || badPatHit rest

/-- isSafePhoneInput from digit-utils.ts. -/
def isSafePhoneInput (s : String) : Bool :=
  if s.data.isEmpty then true else !(badPatHit s.data)

/-- Literal prefix test (pattern first, then input), by code points. -/
def startsWithL : List Char → List Char → Bool
  | [], _ => true
  | _ :: _, [] => false
  | p :: ps, c :: cs => (p.toNat == c.toNat) && startsWithL ps cs

/-- normalizePhoneNumber from digit-utils.ts: sanitize, transliterate,
drop everything but digits and plus, rewrite the country-code forms to the
leading-zero national form, then require a leading zero and length 11. -/
def normalizePhoneNumber (s : String) : String :=
  if s.data.isEmpty then ""
  else
    let sanitized := sanitizeL s.data
    if sanitized.isEmpty then ""
    else
      let cleaned0 := (sanitized.map urduToEnglishChar).filter isDigitPlus
      let cleaned :=
        if startsWithL ['+', '9', '2'] cleaned0 then '0' :: cleaned0.drop 3
        else if startsWithL ['9', '2'] cleaned0 && decide (12 ≤ cleaned0.length) then
          '0' :: cleaned0.drop 2
        else if startsWithL ['0', '0', '9', '2'] cleaned0 then '0' :: cleaned0.drop 4
        else cleaned0
      if !(startsWithL ['0'] cleaned) then ""
      else if decide (11 < cleaned.length) then ""
      else if !(decide (cleaned.length = 11)) then ""
      else ⟨cleaned⟩

/-- The two-character tail of the mobile-prefix class
3(?:[0-4][0-9]|55|39): second character 0-4 with any digit, or 55, or 39. -/
def pre2 (y z : Char) : Bool :=
  (inRange 48 52 y.toNat && isAsciiDigit z) || (y.toNat == 53 && z.toNat == 53) ||
    (y.toNat == 51 && z.toNat == 57)

/-- An optional whitespace character, the fragment / s?/ (deterministic:
whatever must follow is never whitespace). -/
def skipOptWS : List Char → List Char
  | [] => []
  | c :: rest => if jsWS c then rest else c :: rest

/-- An optional opening parenthesis, the fragment / (?/. -/
def skipOptOpen : List Char → List Char
  | [] => []
  | c :: rest => if c.toNat == 40 then rest else c :: rest

/-- An optional closing parenthesis, the fragment / )?/. -/
def skipOptClose : List Char → List Char
  | [] => []
  | c :: rest => if c.toNat == 41 then rest else c :: rest

/-- Exactly seven ASCII digits up to the end of input: ( d\x7b7\x7d)$. -/
def sub7ok (l : List Char) : Bool := decide (l.length = 7) && l.all isAsciiDigit

/-- The capturing core (3(?:[0-4][0-9]|55|39)) )? s?( d\x7b7\x7d)$ shared by the
mobile patterns: returns (prefix capture, subscriber capture). -/
def cap3then : List Char → Option (List Char × List Char)
  | x :: y :: z :: rest =>
    if x.toNat == 51 && pre2 y z then
      let r := skipOptWS (skipOptClose rest)
      if sub7ok r then some ([x, y, z], r) else none
    else none
  | _ => none

/-- The shared pattern tail / s? (?(3XX) )? s?( d\x7b7\x7d)$/. -/
def looseTail (l : List Char) : Option (List Char × List Char) :=
  cap3then (skipOptOpen (skipOptWS l))

/-- PATTERNS.MOBILE.LOOSE with its captures:
^(?:+92|0092|92| (?0)? s? (?(3XX) )? s?( d\x7b7\x7d)$, alternatives in source
order; an alternative whose tail fails falls through to the next one. -/
def looseCapture (l : List Char) : Option (List Char × List Char) :=
  (if startsWithL ['+', '9', '2'] l then looseTail (l.drop 3) else none) <|>
  (if startsWithL ['0', '0', '9', '2'] l then looseTail (l.drop 4) else none) <|>
  (if startsWithL ['9', '2'] l then looseTail (l.drop 2) else none) <|>
  (if startsWithL ['(', '0'] l then looseTail (l.drop 2) else none) <|>
  (if startsWithL ['0'] l then looseTail (l.drop 1) else none) <|>
  looseTail l

/-- PATTERNS.MOBILE.INTERNATIONAL with its captures:
^(?:+|00)?92 s? (?(3XX) )? s?( d\x7b7\x7d)$. -/
def intlCapture (l : List Char) : Option (List Char × List Char) :=
  (if startsWithL ['+', '9', '2'] l then looseTail (l.drop 3) else none) <|>
  (if startsWithL ['0', '0', '9', '2'] l then looseTail (l.drop 4) else none) <|>
  (if startsWithL ['9', '2'] l then looseTail (l.drop 2) else none)

/-- PATTERNS.MOBILE.NATIONAL with its captures:
^ (?0(3XX) )? s?( d\x7b7\x7d)$. -/
def nationalCapture (l : List Char) : Option (List Char × List Char) :=
  match skipOptOpen l with
  | [] => none
  | c :: rest => if c.toNat == 48 then cap3then rest else none

/-- Group 1 of PATTERNS.PREFIX.MOBILE at the capture position (no end
anchor), already converted by parseInt to its numeric value. -/
def pfxCap3 : List Char → Option Nat
  | x :: y :: z :: _ =>
    if x.toNat == 51 && pre2 y z then
      some (300 + 10 * (y.toNat - 48) + (z.toNat - 48))
    else none
  | _ => none

/-- The tail / s? (?(3XX)/ of PATTERNS.PREFIX.MOBILE. -/
def pfxTail (l : List Char) : Option Nat := pfxCap3 (skipOptOpen (skipOptWS l))

/-- PATTERNS.PREFIX.MOBILE:
^(?:(?:+92)|(?:0092)|(?:92)|(?: (?0))? s? (?(3XX) )?, as a numeric capture. -/
def pfxMobile (l : List Char) : Option Nat :=
  (if startsWithL ['+', '9', '2'] l then pfxTail (l.drop 3) else none) <|>
  (if startsWithL ['0', '0', '9', '2'] l then pfxTail (l.drop 4) else none) <|>
  (if startsWithL ['9', '2'] l then pfxTail (l.drop 2) else none) <|>
  (if startsWithL ['(', '0'] l then pfxTail (l.drop 2) else none) <|>
  (if startsWithL ['0'] l then pfxTail (l.drop 1) else none) <|>
  pfxTail l

/-- Strip PATTERNS.CLEAN.FORMATTING characters. -/
def stripFmt (l : List Char) : List Char := l.filter (fun c => !(isFmtChar c))

/-- extractPrefix from phone-utils.ts: strip formatting, match
PATTERNS.PREFIX.MOBILE, parseInt the first capture. -/
def extractPfx (s : String) : Option Nat := pfxMobile (stripFmt s.data)

/-- One carrier record of data/operators.ts. -/
structure OperatorData where
  code : String
  name : String
  prefixes : List Nat
deriving DecidableEq

/-- The six carrier records of data/operators.ts, with their prefix lists
transcribed verbatim. -/
def OPERATORS : List OperatorData :=
  [⟨"JAZZ", "Jazz",
     [300, 301, 302, 303, 304, 305, 306, 307, 308, 309,
      320, 321, 322, 323, 324, 325, 326, 327, 328, 329]⟩,
   ⟨"ZONG", "Zong", [310, 311, 312, 313, 314, 315, 316, 317, 318, 319]⟩,
   ⟨"UFONE", "Ufone", [330, 331, 332, 333, 334, 335, 336, 337, 338]⟩,
   ⟨"ONIC", "Onic", [339]⟩,
   ⟨"TELENOR", "Telenor", [340, 341, 342, 343, 344, 345, 346, 347, 348, 349]⟩,
   ⟨"SCO", "Special Communications Organization", [355]⟩]

/-- isValidMobilePrefix: membership of VALID_MOBILE_PREFIXES, the union of
all carrier prefix lists. -/
def isValidMobilePfx (n : Nat) : Bool :=
  OPERATORS.any (fun op => op.prefixes.contains n)

/-- getOperatorByPrefix: the PREFIX_TO_OPERATOR_MAP lookup (prefix lists
are pairwise disjoint, so the first record containing the prefix is the
unique one). -/
def getOperatorByPfx (n : Nat) : Option OperatorData :=
  OPERATORS.find? (fun op => op.prefixes.contains n)

/-- The cleaned form used by validate and normalizeToComponents: sanitize,
transliterate digits, strip formatting characters. -/
def cleanFormL (l : List Char) : List Char :=
  ((sanitizeL l).map urduToEnglishChar).filter (fun c => !(isFmtChar c))

/-- validate from core/validators.ts: guard, safety check, sanitize,
transliterate, strip formatting, 14-character ceiling, LOOSE pattern
test plus carrier-prefix check via extractPrefix. -/
def validate (s : String) : Bool :=
  if s.data.isEmpty then false
  else if !(isSafePhoneInput s) then false
  else if (sanitizeL s.data).isEmpty then false
  else
    let clean := cleanFormL s.data
    if decide (14 < clean.length) then false
    else
      (looseCapture clean).isSome &&
        (match pfxMobile (stripFmt clean) with
         | some p => isValidMobilePfx p
         | none => false)

/-- FORMAT_TEMPLATES.NATIONAL. -/
def tNational (p sub : List Char) : List Char := '0' :: p ++ ' ' :: sub

/-- FORMAT_TEMPLATES.INTERNATIONAL. -/
def tIntl (p sub : List Char) : List Char := '+' :: '9' :: '2' :: ' ' :: p ++ ' ' :: sub

/-- FORMAT_TEMPLATES.E164. -/
def tE164 (p sub : List Char) : List Char := '+' :: '9' :: '2' :: p ++ sub

/-- FORMAT_TEMPLATES.COMPACT. -/
def tCompact (p sub : List Char) : List Char := '0' :: p ++ sub

/-- FORMAT_TEMPLATES.DOTS. -/
def tDots (p sub : List Char) : List Char :=
  '0' :: p ++ '.' :: sub.take 3 ++ '.' :: sub.drop 3

/-- FORMAT_TEMPLATES.DASHES. -/
def tDashes (p sub : List Char) : List Char :=
  '0' :: p ++ '-' :: sub.take 3 ++ '-' :: sub.drop 3

/-- FORMAT_TEMPLATES.PARENTHESES. -/
def tParens (p sub : List Char) : List Char := '(' :: '0' :: p ++ ')' :: ' ' :: sub

/-- The style switch of format (styles are strings at the JS runtime;
the default arm falls back to the national template). -/
def render (style : String) (p sub : List Char) : List Char :=
  if style = "national" then tNational p sub
  else if style = "international" then tIntl p sub
  else if style = "e164" then tE164 p sub
  else if style = "compact" then tCompact p sub
  else if style = "dots" then tDots p sub
  else if style = "dashes" then tDashes p sub
  else if style = "parentheses" then tParens p sub
  else tNational p sub

/-- normalizeToComponents from core/formatters.ts: clean, dispatch on the
detected shape (HAS_COUNTRY_CODE, then HAS_LEADING_ZERO, then ^0092, then
^92 with a plus prepended), falling through to the LOOSE pattern. -/
def normalizeToComponents (s : String) : Option (List Char × List Char) :=
  if s.data.isEmpty then none
  else
    let cleaned := cleanFormL s.data
    let viaBranch :=
      if startsWithL ['+', '9', '2'] cleaned || startsWithL ['0', '0', '9', '2'] cleaned ||
          startsWithL ['9', '2'] cleaned then intlCapture cleaned
      else if startsWithL ['0'] cleaned then nationalCapture cleaned
      else if startsWithL ['0', '0', '9', '2'] cleaned then intlCapture cleaned
      else if startsWithL ['9', '2'] cleaned then intlCapture ('+' :: cleaned)
      else none
    viaBranch <|> looseCapture cleaned

/-- format from core/formatters.ts: throws (models as Except.error) when
validate fails or no components can be extracted, otherwise renders the
requested style. -/
def format (phone style : String) : Except String String :=
  if !(validate phone) then Except.error "Invalid phone number format"
  else
    match normalizeToComponents phone with
    | none => Except.error "Invalid phone number format"
    | some (p, sub) => Except.ok ⟨render style p sub⟩

/-- The operator view returned by detectOperator. -/
structure OperatorInfo where
  code : String
  name : String
deriving DecidableEq

/-- extractMobilePrefix from core/operators.ts: strip formatting, match
PATTERNS.PREFIX.MOBILE, and additionally require a valid carrier prefix. -/
def extractMobilePfx (s : String) : Option Nat :=
  if s.data.isEmpty then none
  else
    match pfxMobile (stripFmt s.data) with
    | some p => if isValidMobilePfx p then some p else none
    | none => none

/-- detectOperator from core/operators.ts. -/
def detectOperator (s : String) : Option OperatorInfo :=
  if !(validate s) then none
  else
    match extractMobilePfx s with
    | none => none
    | some p =>
      match getOperatorByPfx p with
      | none => none
      | some op => some ⟨op.code, op.name⟩

/-- The regex /0 d\x7b3\x7d( d\x7b7\x7d)/ of extractSubscriber at one position. -/
def subMatchAt : List Char → Option (List Char)
  | c0 :: d1 :: d2 :: d3 :: s1 :: s2 :: s3 :: s4 :: s5 :: s6 :: s7 :: _ =>
    if c0.toNat == 48 && isAsciiDigit d1 && isAsciiDigit d2 && isAsciiDigit d3 &&
        isAsciiDigit s1 && isAsciiDigit s2 && isAsciiDigit s3 && isAsciiDigit s4 &&
        isAsciiDigit s5 && isAsciiDigit s6 && isAsciiDigit s7 then
      some [s1, s2, s3, s4, s5, s6, s7]
    else none
  | _ => none

/-- Leftmost match of the extractSubscriber regex. -/
def findSub : List Char → Option (List Char)
  | [] => none
  | c :: rest =>
    match subMatchAt (c :: rest) with
    | some r => some r
    | none => findSub rest

/-- extractSubscriber from phone-utils.ts. -/
def extractSubscriber (s : String) : String :=
  match findSub s.data with
  | some l => ⟨l⟩
  | none => ""

/-- The ParsedPhoneNumber value object of utils/helpers.ts. -/
structure PhoneNumberR where
  raw : String
  formatted : String
  international : String
  operator : Option OperatorInfo
  pfx : Nat
  subscriberNumber : String
deriving DecidableEq

/-- parse from utils/helpers.ts: validate, normalize, extract prefix and
subscriber, detect the operator, and render the national and international
forms (a formatting error is caught and turned into null). -/
def parse (s : String) : Option PhoneNumberR :=
  if !(validate s) then none
  else
    let normalized := normalizePhoneNumber s
    if normalized.data.isEmpty then none
    else
      match extractPfx normalized with
      | none => none
      | some p =>
        let sub := extractSubscriber normalized
        if sub.data.isEmpty then none
        else
          match format normalized "national", format normalized "international" with
          | Except.ok f, Except.ok i => some ⟨s, f, i, detectOperator normalized, p, sub⟩
          | _, _ => none

/-- JavaScript runtime values as seen by the entry points: a string, a
nullish value (null/undefined), or any other non-string value. -/
inductive JsVal where
  | str : String → JsVal
  | nullish : JsVal
  | other : JsVal
deriving DecidableEq

/-- validate at the JS boundary: the typeof guard sends every non-string
to false. -/
def validateJs : JsVal → Bool
  | JsVal.str s => validate s
  | _ => false

/-- parse at the JS boundary. -/
def parseJs : JsVal → Option PhoneNumberR
  | JsVal.str s => parse s
  | _ => none

/-- detectOperator at the JS boundary. -/
def detectOperatorJs : JsVal → Option OperatorInfo
  | JsVal.str s => detectOperator s
  | _ => none

/-- normalizePhoneNumber at the JS boundary. -/
def normalizeJs : JsVal → String
  | JsVal.str s => normalizePhoneNumber s
  | _ => ""

/-- Characters that can occur in a well-formed phone rendering: ASCII
digits, plus, space, dot, dash, parentheses, and Urdu-Arabic digits.
None of them can start one of the problematic safety patterns. -/
def phoneish (c : Char) : Bool :=
  isAsciiDigit c || c.toNat == 43 || c.toNat == 32 || c.toNat == 46 ||
    c.toNat == 45 || c.toNat == 40 || c.toNat == 41 || inRange 1776 1785 c.toNat

/-- No two adjacent whitespace characters (so the whitespace collapse is
the identity). -/
def noDoubleWS : List Char → Bool
  | c1 :: c2 :: rest => (!(jsWS c1 && jsWS c2)) && noDoubleWS (c2 :: rest)
  | _ => true

/-- The set of formatting characters a rendering may mix in, per the
spec's admissible-rendering clause: spaces, dashes, dots, parentheses,
underscores. -/
def fmtR (c : Char) : Bool :=
  c.toNat == 32 || c.toNat == 45 || c.toNat == 46 || c.toNat == 40 ||
    c.toNat == 41 || c.toNat == 95

/-- The four admissible base digit strings for the canonical national
number 0 3yz sub: national, +92, bare 92, and 0092 forms. -/
def admissibleBases (y z : Char) (sub : List Char) : List (List Char) :=
  ['0' :: '3' :: y :: z :: sub,
   '+' :: '9' :: '2' :: '3' :: y :: z :: sub,
   '9' :: '2' :: '3' :: y :: z :: sub,
   '0' :: '0' :: '9' :: '2' :: '3' :: y :: z :: sub]

/-- The seven recognized style names of the formatter. -/
def styleNames : List String :=
  ["national", "international", "e164", "compact", "dots", "dashes", "parentheses"]

/-- Shape of every successful capture of the mobile patterns: a
three-character prefix 3yz from the prefix class and a seven-digit
subscriber. -/
def capShape (p sub : List Char) : Prop :=
  ∃ x y z, p = [x, y, z] ∧ x.toNat = 51 ∧ pre2 y z = true ∧ sub.length = 7 ∧
    ∀ c ∈ sub, isAsciiDigit c = true

example : validate "03001234567" = true := by decide
example : validate "0300-123-4567" = true := by decide
example : validate "(0300) 1234567" = true := by decide
example : validate "+92 300 1234567" = true := by decide
example : validate "00923001234567" = true := by decide
example : validate "009230012345678" = false := by decide
example : validate "02001234567" = false := by decide
example : validate "3001234567" = true := by decide
example : validate "<script>alert(1)</script>" = false := by decide
example : validate "javascript:alert(1)" = false := by decide
example : validate "03551234567" = true := by decide
example : format "03001234567" "national" = Except.ok "0300 1234567" := rfl
example : format "00923001234567" "national" = Except.ok "0300 1234567" := rfl
example : format "923001234567" "international" = Except.ok "+92 300 1234567" := rfl
example : format "03551234567" "parentheses" = Except.ok "(0355) 1234567" := rfl
example : format "03001234567" "bogus" = Except.ok "0300 1234567" := rfl
example : (format "0300 123 4567" "dots").isOk = true := by decide
example : format "+92 300 1234567" "e164" = Except.ok "+923001234567" := rfl
example : parse "3001234567" = none := by decide
example : normalizePhoneNumber "3001234567" = "" := by decide
example : detectOperator "03391234567" = some ⟨"ONIC", "Onic"⟩ := by decide
example : (parse "0300 123 4567").isSome = true := by decide
example : validate (englishToUrduDigits "03001234567") = true := by decide
example : format "0300.123.4567" "dashes" = Except.ok "0300-123-4567" := rfl
example : format "0300-123-4567" "compact" = Except.ok "03001234567" := rfl

example : normalizePhoneNumber "+92 300 1234567" = "03001234567" := by decide
example : normalizePhoneNumber "0092-300-123-4567" = "03001234567" := by decide
example : normalizePhoneNumber "923001234567" = "03001234567" := by decide
example : normalizePhoneNumber "  0300 123 4567  " = "03001234567" := by decide
example : normalizePhoneNumber "0300_123_4567" = "03001234567" := by decide
example : normalizePhoneNumber "invalid" = "" := by decide
example : normalizePhoneNumber "02001234567" = "02001234567" := by decide
example : normalizePhoneNumber "javascript:03001234567" = "03001234567" := by decide
example : isSafePhoneInput "javascript:03001234567" = false := by decide
example : isSafePhoneInput "<script>alert(1)</script>" = false := by decide
example : isSafePhoneInput "0300 onx=1" = false := by decide
example : isSafePhoneInput "0300 1234567" = true := by decide

/-! ### Character-level facts -/

theorem digit_bounds {c : Char} (h : isAsciiDigit c = true) :
    48 ≤ c.toNat ∧ c.toNat ≤ 57 := by
  simpa [isAsciiDigit, inRange] using h

theorem digit_not_ws {c : Char} (h : isAsciiDigit c = true) : jsWS c = false := by
  have hb := digit_bounds h
  simp [jsWS, inRange]
  omega

theorem digit_not_zw {c : Char} (h : isAsciiDigit c = true) : isZW c = false := by
  have hb := digit_bounds h
  simp [isZW, inRange]
  omega

theorem digit_not_fmt {c : Char} (h : isAsciiDigit c = true) : isFmtChar c = false := by
  have hb := digit_bounds h
  simp [isFmtChar, jsWS, inRange]
  omega

theorem digit_dplus {c : Char} (h : isAsciiDigit c = true) : isDigitPlus c = true := by
  simp [isDigitPlus, h]

theorem digit_translit {c : Char} (h : isAsciiDigit c = true) :
    urduToEnglishChar c = c := by
  have hb := digit_bounds h
  rw [urduToEnglishChar, if_neg]
  omega

theorem digit_phoneish {c : Char} (h : isAsciiDigit c = true) : phoneish c = true := by
  simp [phoneish, h]

theorem ws_not_dplus {c : Char} (h : jsWS c = true) : isDigitPlus c = false := by
  simp [jsWS, inRange] at h
  simp [isDigitPlus, isAsciiDigit, inRange]
  omega

theorem dplus_not_zw {c : Char} (h : isDigitPlus c = true) : isZW c = false := by
  simp [isDigitPlus, isAsciiDigit, inRange] at h
  simp [isZW, inRange]
  omega

theorem toNat_ofNat_small {n : Nat} (h : n < 55296) : (Char.ofNat n).toNat = n := by
  unfold Char.ofNat
  split
  · rfl
  · rename_i hv
    exact absurd (Or.inl h) hv

theorem translit_idem (c : Char) :
    urduToEnglishChar (urduToEnglishChar c) = urduToEnglishChar c := by
  unfold urduToEnglishChar
  split
  · rename_i h1
    have h2 : (Char.ofNat (c.toNat - 1776 + 48)).toNat = c.toNat - 1776 + 48 :=
      toNat_ofNat_small (by omega)
    rw [if_neg]
    omega
  · rfl

theorem translit_space : urduToEnglishChar ' ' = ' ' := by decide

/-! ### Safety filter: phone-like characters never trigger a pattern -/

theorem phoneish_lowN {c : Char} (h : phoneish c = true) :
    lowN c = c.toNat ∧ c.toNat ≠ 38 ∧ c.toNat ≠ 60 ∧ c.toNat ≠ 106 ∧ c.toNat ≠ 111 ∧
      c.toNat ≠ 101 ∧ c.toNat ≠ 100 ∧ c.toNat ≠ 118 ∧ c.toNat ≠ 115 := by
  simp [phoneish, isAsciiDigit, inRange] at h
  have hn : ¬(65 ≤ c.toNat ∧ c.toNat ≤ 90) := by omega
  refine ⟨by simp [lowN, hn], by omega, by omega, by omega, by omega, by omega,
    by omega, by omega, by omega⟩

theorem ciStart_head_false {p c : Char} {ps cs : List Char} (h : lowN c ≠ lowN p) :
    ciStart (p :: ps) (c :: cs) = false := by
  simp [ciStart, h]

theorem onHandlerAt_head_false {c : Char} {l : List Char} (h : lowN c ≠ 111) :
    onHandlerAt (c :: l) = false := by
  match l with
  | [] => rfl
  | [c2] => rfl
  | c2 :: c3 :: rest => simp [onHandlerAt, h]

theorem styleAt_head_false {c : Char} {l : List Char} (h : lowN c ≠ 115) :
    styleAt (c :: l) = false := by
  match l with
  | [] => rfl
  | [c2] => rfl
  | [c2, c3] => rfl
  | [c2, c3, c4] => rfl
  | c2 :: c3 :: c4 :: c5 :: rest => simp [styleAt, h]

theorem badPatAt_phoneish {c : Char} {l : List Char} (h : phoneish c = true) :
    badPatAt (c :: l) = false := by
  obtain ⟨hl, h38, h60, h106, h111, h101, h100, h118, h115⟩ := phoneish_lowN h
  rw [badPatAt]
  rw [ciStart_head_false (by rw [hl]; simpa using h60)]
  rw [ciStart_head_false (by rw [hl]; simpa using h106)]
  rw [onHandlerAt_head_false (by rw [hl]; exact h111)]
  rw [ciStart_head_false (by rw [hl]; simpa using h101)]
  rw [ciStart_head_false (by rw [hl]; simpa using h101)]
  rw [ciStart_head_false (by rw [hl]; simpa using h100)]
  rw [ciStart_head_false (by rw [hl]; simpa using h118)]
  rw [ciStart_head_false (by rw [hl]; simpa using h38)]
  rw [ciStart_head_false (by rw [hl]; simpa using h38)]
  rw [ciStart_head_false (by rw [hl]; simpa using h38)]
  rw [styleAt_head_false (by rw [hl]; exact h115)]
  rfl

theorem badPatHit_phoneish {l : List Char} (h : ∀ c ∈ l, phoneish c = true) :
    badPatHit l = false := by
  induction l with
  | nil => rfl
  | cons c rest ih =>
    rw [badPatHit, badPatAt_phoneish (h c (by simp)), ih (fun d hd => h d (by simp [hd]))]
    rfl

theorem isSafe_phoneish {s : String} (h : ∀ c ∈ s.data, phoneish c = true) :
    isSafePhoneInput s = true := by
  rw [isSafePhoneInput]
  split
  · rfl
  · rw [badPatHit_phoneish h]
    rfl

/-! ### Sanitizer structure lemmas -/

theorem filter_dropWhile {p q : Char → Bool} (hpq : ∀ c, q c = true → p c = false) :
    ∀ l : List Char, (l.dropWhile q).filter p = l.filter p := by
  intro l
  induction l with
  | nil => rfl
  | cons c cs ih =>
    rw [List.dropWhile_cons]
    by_cases hq : q c = true
    · simp only [hq, if_true]
      rw [ih, List.filter_cons, hpq c hq]
      simp
    · have hq2 : q c = false := by simpa using hq
      simp [hq2]

theorem filter_trim {p : Char → Bool} (hws : ∀ c, jsWS c = true → p c = false)
    (l : List Char) : (trimL l).filter p = l.filter p := by
  unfold trimL
  rw [List.filter_reverse, filter_dropWhile hws, List.filter_reverse,
    filter_dropWhile hws, List.reverse_reverse]

theorem trimL_id {l : List Char} (hh : ∀ c, l.head? = some c → jsWS c = false)
    (hl : ∀ c, l.getLast? = some c → jsWS c = false) : trimL l = l := by
  unfold trimL
  have h1 : l.dropWhile jsWS = l := by
    cases l with
    | nil => rfl
    | cons c cs =>
      rw [List.dropWhile_cons]
      simp [hh c rfl]
  rw [h1]
  have h2 : l.reverse.dropWhile jsWS = l.reverse := by
    cases hr : l.reverse with
    | nil => rfl
    | cons c cs =>
      rw [List.dropWhile_cons]
      have hc : l.getLast? = some c := by
        rw [← List.head?_reverse, hr]
        rfl
      simp [hl c hc]
  rw [h2, List.reverse_reverse]

theorem trim_length_le (l : List Char) : (trimL l).length ≤ l.length := by
  unfold trimL
  calc ((l.dropWhile jsWS).reverse.dropWhile jsWS).reverse.length
      = ((l.dropWhile jsWS).reverse.dropWhile jsWS).length := by simp
    _ ≤ (l.dropWhile jsWS).reverse.length := (List.dropWhile_sublist _).length_le
    _ = (l.dropWhile jsWS).length := by simp
    _ ≤ l.length := (List.dropWhile_sublist _).length_le

theorem mem_trim {l : List Char} {c : Char} (h : c ∈ trimL l) : c ∈ l := by
  simp only [trimL, List.mem_reverse] at h
  have h1 := (List.dropWhile_sublist _).subset h
  rw [List.mem_reverse] at h1
  exact (List.dropWhile_sublist _).subset h1

theorem collapseGo_zero (l : List Char) : collapseGo 0 l = l := by
  match l with
  | [] => rfl
  | [c] => rfl
  | c1 :: c2 :: rest => rfl

theorem collapseGo_id :
    ∀ (fuel : Nat) (l : List Char), noDoubleWS l = true → collapseGo fuel l = l := by
  intro fuel
  induction fuel with
  | zero => intro l _; exact collapseGo_zero l
  | succ n ih =>
    intro l h
    match l with
    | [] => rfl
    | [c] => rfl
    | c1 :: c2 :: rest =>
      have hnd : (!(jsWS c1 && jsWS c2)) = true ∧ noDoubleWS (c2 :: rest) = true := by
        rw [noDoubleWS, Bool.and_eq_true] at h
        exact h
      have hb : (jsWS c1 && jsWS c2) = false := by
        have h1 := hnd.1
        revert h1
        cases (jsWS c1 && jsWS c2) <;> simp
      simp only [collapseGo, hb, Bool.false_eq_true, if_false]
      rw [ih (c2 :: rest) hnd.2]

theorem collapseGo_filter {p : Char → Bool} (hws : ∀ c, jsWS c = true → p c = false) :
    ∀ (fuel : Nat) (l : List Char), (collapseGo fuel l).filter p = l.filter p := by
  intro fuel
  induction fuel with
  | zero => intro l; rw [collapseGo_zero]
  | succ n ih =>
    intro l
    match l with
    | [] => rfl
    | [c] => rfl
    | c1 :: c2 :: rest =>
      by_cases hb : (jsWS c1 && jsWS c2) = true
      · obtain ⟨h1, h2⟩ : jsWS c1 = true ∧ jsWS c2 = true := by simpa using hb
        simp only [collapseGo, hb, if_true]
        rw [ih]
        simp [List.filter_cons, hws _ h1, hws _ h2, hws ' ' (by decide)]
      · have hb2 : (jsWS c1 && jsWS c2) = false := by simpa using hb
        simp only [collapseGo, hb2, Bool.false_eq_true, if_false]
        rw [List.filter_cons, List.filter_cons, ih]

theorem collapseGo_length :
    ∀ (fuel : Nat) (l : List Char), (collapseGo fuel l).length ≤ l.length := by
  intro fuel
  induction fuel with
  | zero => intro l; rw [collapseGo_zero]
  | succ n ih =>
    intro l
    match l with
    | [] => rw [show collapseGo (n + 1) ([] : List Char) = [] from rfl]
    | [c] => rw [show collapseGo (n + 1) [c] = [c] from rfl]
    | c1 :: c2 :: rest =>
      by_cases hb : (jsWS c1 && jsWS c2) = true
      · simp only [collapseGo, hb, if_true]
        calc (collapseGo n (' ' :: rest)).length ≤ (' ' :: rest).length := ih _
          _ ≤ (c1 :: c2 :: rest).length := by simp
      · have hb2 : (jsWS c1 && jsWS c2) = false := by simpa using hb
        simp only [collapseGo, hb2, Bool.false_eq_true, if_false]
        have := ih (c2 :: rest)
        simp only [List.length_cons] at this ⊢
        omega

theorem mem_collapseGo :
    ∀ (fuel : Nat) (l : List Char) (c : Char), c ∈ collapseGo fuel l → c ∈ l ∨ c = ' ' := by
  intro fuel
  induction fuel with
  | zero => intro l c h; rw [collapseGo_zero] at h; exact Or.inl h
  | succ n ih =>
    intro l c h
    match l with
    | [] => rw [show collapseGo (n + 1) ([] : List Char) = [] from rfl] at h; cases h
    | [d] =>
      rw [show collapseGo (n + 1) [d] = [d] from rfl] at h
      exact Or.inl h
    | c1 :: c2 :: rest =>
      by_cases hb : (jsWS c1 && jsWS c2) = true
      · simp only [collapseGo, hb, if_true] at h
        rcases ih _ _ h with h1 | h1
        · rcases List.mem_cons.mp h1 with h2 | h2
          · exact Or.inr h2
          · exact Or.inl (by simp [h2])
        · exact Or.inr h1
      · have hb2 : (jsWS c1 && jsWS c2) = false := by simpa using hb
        simp only [collapseGo, hb2, Bool.false_eq_true, if_false] at h
        rcases List.mem_cons.mp h with h1 | h1
        · exact Or.inl (by simp [h1])
        · rcases ih _ _ h1 with h2 | h2
          · exact Or.inl (by simp [List.mem_cons.mp h2])
          · exact Or.inr h2

theorem noDoubleWS_cons {c : Char} {l : List Char}
    (h : ∀ d, l.head? = some d → jsWS d = false) : noDoubleWS (c :: l) = noDoubleWS l := by
  cases l with
  | nil => rfl
  | cons d rest =>
    have hd : jsWS d = false := h d rfl
    simp [noDoubleWS, hd]

theorem noDoubleWS_of_all {l : List Char} (h : ∀ c ∈ l, jsWS c = false) :
    noDoubleWS l = true := by
  induction l with
  | nil => rfl
  | cons c cs ih =>
    rw [noDoubleWS_cons (fun d hd => h d (by simp [List.mem_of_mem_head? hd]))]
    exact ih (fun d hd => h d (by simp [hd]))

theorem sanitizeL_fixed {l : List Char} (h0 : l ≠ [])
    (hh : ∀ c, l.head? = some c → jsWS c = false)
    (hl : ∀ c, l.getLast? = some c → jsWS c = false)
    (ht : ∀ c ∈ l, urduToEnglishChar c = c)
    (hz : ∀ c ∈ l, isZW c = false)
    (hnd : noDoubleWS l = true)
    (hlen : l.length ≤ 30) : sanitizeL l = l := by
  unfold sanitizeL
  rw [if_neg (by simpa [List.isEmpty_iff] using h0)]
  rw [trimL_id hh hl]
  rw [show l.map urduToEnglishChar = l from by rw [List.map_congr_left ht]; simp]
  rw [List.filter_eq_self.mpr (fun c hc => by simp [hz c hc])]
  unfold collapseWS
  rw [collapseGo_id _ _ hnd]
  exact List.take_of_length_le hlen

theorem filterDP_sanitize {l : List Char} (ht : ∀ c ∈ l, urduToEnglishChar c = c)
    (hlen : l.length ≤ 30) :
    ((sanitizeL l).map urduToEnglishChar).filter isDigitPlus = l.filter isDigitPlus := by
  by_cases h0 : l = []
  · subst h0; rfl
  unfold sanitizeL
  rw [if_neg (by simpa [List.isEmpty_iff] using h0)]
  have hsubT : ∀ c ∈ trimL l, c ∈ l := fun c hc => mem_trim hc
  have hmapT : (trimL l).map urduToEnglishChar = trimL l := by
    rw [List.map_congr_left (fun c hc => ht c (hsubT c hc))]
    simp
  rw [hmapT]
  have hlenC :
      (collapseWS ((trimL l).filter (fun c => !(isZW c)))).length ≤ 30 := by
    calc (collapseWS ((trimL l).filter (fun c => !(isZW c)))).length
        ≤ ((trimL l).filter (fun c => !(isZW c))).length := collapseGo_length _ _
      _ ≤ (trimL l).length := List.length_filter_le _ _
      _ ≤ l.length := trim_length_le l
      _ ≤ 30 := hlen
  rw [List.take_of_length_le hlenC]
  have hmemC : ∀ c ∈ collapseWS ((trimL l).filter (fun c => !(isZW c))),
      urduToEnglishChar c = c := by
    intro c hc
    rcases mem_collapseGo _ _ _ hc with h1 | h1
    · exact ht c (hsubT c (List.mem_of_mem_filter h1))
    · subst h1; exact translit_space
  rw [show (collapseWS ((trimL l).filter (fun c => !(isZW c)))).map urduToEnglishChar
      = collapseWS ((trimL l).filter (fun c => !(isZW c))) from by
    rw [List.map_congr_left hmemC]; simp]
  unfold collapseWS
  rw [collapseGo_filter (fun c h => ws_not_dplus h)]
  rw [List.filter_filter]
  have hcong : (trimL l).filter (fun c => isDigitPlus c && !(isZW c))
      = (trimL l).filter isDigitPlus :=
    List.filter_congr (fun c _ => by
      cases hdp : isDigitPlus c
      · simp [hdp]
      · simp [hdp, dplus_not_zw hdp])
  rw [hcong]
  exact filter_trim (fun c h => ws_not_dplus h) l

theorem cleanFormL_fixed {l : List Char} (h0 : l ≠ [])
    (hh : ∀ c, l.head? = some c → jsWS c = false)
    (hl : ∀ c, l.getLast? = some c → jsWS c = false)
    (ht : ∀ c ∈ l, urduToEnglishChar c = c)
    (hz : ∀ c ∈ l, isZW c = false)
    (hnd : noDoubleWS l = true)
    (hlen : l.length ≤ 30) :
    cleanFormL l = l.filter (fun c => !(isFmtChar c)) := by
  unfold cleanFormL
  rw [sanitizeL_fixed h0 hh hl ht hz hnd hlen]
  rw [show l.map urduToEnglishChar = l from by rw [List.map_congr_left ht]; simp]

/-! ### Pattern matcher evaluation on canonical digit lists -/

theorem skipOptWS_head {c : Char} {l : List Char} (h : jsWS c = false) :
    skipOptWS (c :: l) = c :: l := by
  simp [skipOptWS, h]

theorem skipOptOpen_head {c : Char} {l : List Char} (h : c.toNat ≠ 40) :
    skipOptOpen (c :: l) = c :: l := by
  simp [skipOptOpen, h]

theorem skipOptClose_head {c : Char} {l : List Char} (h : c.toNat ≠ 41) :
    skipOptClose (c :: l) = c :: l := by
  simp [skipOptClose, h]

theorem skipOptClose_digits {l : List Char} (hd : ∀ c ∈ l, isAsciiDigit c = true) :
    skipOptClose l = l := by
  cases l with
  | nil => rfl
  | cons c cs =>
    have hb := digit_bounds (hd c (by simp))
    exact skipOptClose_head (by omega)

theorem skipOptWS_digits {l : List Char} (hd : ∀ c ∈ l, isAsciiDigit c = true) :
    skipOptWS l = l := by
  cases l with
  | nil => rfl
  | cons c cs => exact skipOptWS_head (digit_not_ws (hd c (by simp)))

theorem digit_of_51 {x : Char} (hx : x.toNat = 51) : isAsciiDigit x = true := by
  simp [isAsciiDigit, inRange, hx]

theorem cap3then_digits {x y z : Char} {sub : List Char} (hx : x.toNat = 51)
    (hyz : pre2 y z = true) (h7 : sub.length = 7)
    (hd : ∀ c ∈ sub, isAsciiDigit c = true) :
    cap3then (x :: y :: z :: sub) = some ([x, y, z], sub) := by
  have h1 : skipOptClose sub = sub := skipOptClose_digits hd
  have h2 : skipOptWS sub = sub := skipOptWS_digits hd
  have h3 : sub7ok sub = true := by
    simp [sub7ok, h7, List.all_eq_true.mpr hd]
  simp [cap3then, hx, hyz, h1, h2, h3]

theorem looseTail_digits {x y z : Char} {sub : List Char} (hx : x.toNat = 51)
    (hyz : pre2 y z = true) (h7 : sub.length = 7)
    (hd : ∀ c ∈ sub, isAsciiDigit c = true) :
    looseTail (x :: y :: z :: sub) = some ([x, y, z], sub) := by
  unfold looseTail
  rw [skipOptWS_head (digit_not_ws (digit_of_51 hx)), skipOptOpen_head (by omega)]
  exact cap3then_digits hx hyz h7 hd

theorem looseCapture_natForm {x y z : Char} {sub : List Char} (hx : x.toNat = 51)
    (hyz : pre2 y z = true) (h7 : sub.length = 7)
    (hd : ∀ c ∈ sub, isAsciiDigit c = true) :
    looseCapture ('0' :: x :: y :: z :: sub) = some ([x, y, z], sub) := by
  have hlt := looseTail_digits hx hyz h7 hd
  simp [looseCapture, startsWithL, hx, hlt]

theorem looseCapture_intlForm {x y z : Char} {sub : List Char} (hx : x.toNat = 51)
    (hyz : pre2 y z = true) (h7 : sub.length = 7)
    (hd : ∀ c ∈ sub, isAsciiDigit c = true) :
    looseCapture ('+' :: '9' :: '2' :: x :: y :: z :: sub) = some ([x, y, z], sub) := by
  have hlt := looseTail_digits hx hyz h7 hd
  simp [looseCapture, startsWithL, hlt]

theorem looseCapture_bareForm {x y z : Char} {sub : List Char} (hx : x.toNat = 51)
    (hyz : pre2 y z = true) (h7 : sub.length = 7)
    (hd : ∀ c ∈ sub, isAsciiDigit c = true) :
    looseCapture (x :: y :: z :: sub) = some ([x, y, z], sub) := by
  have hlt := looseTail_digits hx hyz h7 hd
  simp [looseCapture, startsWithL, hx, hlt]

theorem looseCapture_z92Form {x y z : Char} {sub : List Char} (hx : x.toNat = 51)
    (hyz : pre2 y z = true) (h7 : sub.length = 7)
    (hd : ∀ c ∈ sub, isAsciiDigit c = true) :
    looseCapture ('0' :: '0' :: '9' :: '2' :: x :: y :: z :: sub) = some ([x, y, z], sub) := by
  have hlt := looseTail_digits hx hyz h7 hd
  simp [looseCapture, startsWithL, hlt]

theorem pfxCap3_digits {x y z : Char} (rest : List Char) (hx : x.toNat = 51)
    (hyz : pre2 y z = true) :
    pfxCap3 (x :: y :: z :: rest) = some (300 + 10 * (y.toNat - 48) + (z.toNat - 48)) := by
  simp [pfxCap3, hx, hyz]

theorem pfxTail_digits {x y z : Char} (rest : List Char) (hx : x.toNat = 51)
    (hyz : pre2 y z = true) :
    pfxTail (x :: y :: z :: rest) = some (300 + 10 * (y.toNat - 48) + (z.toNat - 48)) := by
  unfold pfxTail
  rw [skipOptWS_head (digit_not_ws (digit_of_51 hx)), skipOptOpen_head (by omega)]
  exact pfxCap3_digits rest hx hyz

theorem pfxMobile_natForm {x y z : Char} (rest : List Char) (hx : x.toNat = 51)
    (hyz : pre2 y z = true) :
    pfxMobile ('0' :: x :: y :: z :: rest) =
      some (300 + 10 * (y.toNat - 48) + (z.toNat - 48)) := by
  have hpt := pfxTail_digits rest hx hyz
  simp [pfxMobile, startsWithL, hx, hpt]

theorem pfxMobile_intlForm {x y z : Char} (rest : List Char) (hx : x.toNat = 51)
    (hyz : pre2 y z = true) :
    pfxMobile ('+' :: '9' :: '2' :: x :: y :: z :: rest) =
      some (300 + 10 * (y.toNat - 48) + (z.toNat - 48)) := by
  have hpt := pfxTail_digits rest hx hyz
  simp [pfxMobile, startsWithL, hpt]

theorem pfxMobile_bareForm {x y z : Char} (rest : List Char) (hx : x.toNat = 51)
    (hyz : pre2 y z = true) :
    pfxMobile (x :: y :: z :: rest) =
      some (300 + 10 * (y.toNat - 48) + (z.toNat - 48)) := by
  have hpt := pfxTail_digits rest hx hyz
  simp [pfxMobile, startsWithL, hx, hpt]

theorem pfxMobile_z92Form {x y z : Char} (rest : List Char) (hx : x.toNat = 51)
    (hyz : pre2 y z = true) :
    pfxMobile ('0' :: '0' :: '9' :: '2' :: x :: y :: z :: rest) =
      some (300 + 10 * (y.toNat - 48) + (z.toNat - 48)) := by
  have hpt := pfxTail_digits rest hx hyz
  simp [pfxMobile, startsWithL, hpt]

/-! ### Carrier prefix set facts -/

theorem valid_iff (n : Nat) :
    isValidMobilePfx n = true ↔ ((300 ≤ n ∧ n ≤ 349) ∨ n = 355) := by
  simp [isValidMobilePfx, OPERATORS, List.contains]
  omega

theorem pre2_bounds {y z : Char} (h : pre2 y z = true) :
    (48 ≤ y.toNat ∧ y.toNat ≤ 52 ∧ 48 ≤ z.toNat ∧ z.toNat ≤ 57) ∨
      (y.toNat = 53 ∧ z.toNat = 53) ∨ (y.toNat = 51 ∧ z.toNat = 57) := by
  have h2 := h
  simp [pre2, isAsciiDigit, inRange] at h2
  tauto

theorem pre2_digits {y z : Char} (h : pre2 y z = true) :
    isAsciiDigit y = true ∧ isAsciiDigit z = true := by
  have hb := pre2_bounds h
  constructor <;> simp [isAsciiDigit, inRange] <;> omega

theorem pre2_valid {y z : Char} (h : pre2 y z = true) :
    isValidMobilePfx (300 + 10 * (y.toNat - 48) + (z.toNat - 48)) = true := by
  have hb := pre2_bounds h
  exact (valid_iff _).mpr (by omega)

theorem valid_pre2 {y z : Char} (hy : isAsciiDigit y = true) (hz : isAsciiDigit z = true)
    (h : isValidMobilePfx (300 + 10 * (y.toNat - 48) + (z.toNat - 48)) = true) :
    pre2 y z = true := by
  have hb := (valid_iff _).mp h
  have hby := digit_bounds hy
  have hbz := digit_bounds hz
  simp [pre2, isAsciiDigit, inRange]
  omega

/-! ### Inversion: every successful capture has the canonical shape -/

theorem orElse_some {α : Type} {a b : Option α} {v : α} (h : (a <|> b) = some v) :
    a = some v ∨ b = some v := by
  cases a <;> simp_all

theorem ite_none_some {α : Type} {c : Bool} {a : Option α} {v : α}
    (h : (if c = true then a else none) = some v) : a = some v := by
  by_cases hc : c = true
  · rwa [if_pos hc] at h
  · rw [if_neg hc] at h
    cases h

theorem cap3then_shape {l p sub : List Char} (h : cap3then l = some (p, sub)) :
    capShape p sub := by
  match l with
  | [] => exact absurd h (by simp [cap3then])
  | [x] => exact absurd h (by simp [cap3then])
  | [x, y] => exact absurd h (by simp [cap3then])
  | x :: y :: z :: rest =>
    rw [cap3then] at h
    by_cases hc : (x.toNat == 51 && pre2 y z) = true
    · rw [if_pos hc] at h
      obtain ⟨hc1, hc2⟩ := Bool.and_eq_true_iff.mp hc
      by_cases hs : sub7ok (skipOptWS (skipOptClose rest)) = true
      · rw [if_pos hs] at h
        have hinj := Option.some.inj h
        have hp : p = [x, y, z] := (congrArg Prod.fst hinj).symm
        have hr : sub = skipOptWS (skipOptClose rest) := (congrArg Prod.snd hinj).symm
        have hs2 : sub7ok sub = true := by rw [hr]; exact hs
        rw [sub7ok, Bool.and_eq_true] at hs2
        exact ⟨x, y, z, hp, by simpa using hc1, hc2, by simpa using hs2.1,
          List.all_eq_true.mp hs2.2⟩
      · rw [if_neg hs] at h
        cases h
    · rw [if_neg hc] at h
      cases h

theorem looseTail_shape {l p sub : List Char} (h : looseTail l = some (p, sub)) :
    capShape p sub :=
  cap3then_shape h

theorem nationalCapture_shape {l p sub : List Char}
    (h : nationalCapture l = some (p, sub)) : capShape p sub := by
  rw [nationalCapture] at h
  split at h
  · cases h
  · exact cap3then_shape (ite_none_some h)

theorem looseStep_shape {l p sub : List Char} {b : List Char} {n : Nat}
    (h : (if startsWithL b l = true then looseTail (l.drop n) else none) = some (p, sub)) :
    capShape p sub :=
  looseTail_shape (ite_none_some h)

theorem intlCapture_shape {l p sub : List Char} (h : intlCapture l = some (p, sub)) :
    capShape p sub := by
  rw [intlCapture] at h
  rcases orElse_some h with h1 | h1
  · exact looseStep_shape h1
  rcases orElse_some h1 with h2 | h2
  · exact looseStep_shape h2
  · exact looseStep_shape h2

theorem looseCapture_shape {l p sub : List Char} (h : looseCapture l = some (p, sub)) :
    capShape p sub := by
  rw [looseCapture] at h
  rcases orElse_some h with h1 | h1
  · exact looseStep_shape h1
  rcases orElse_some h1 with h2 | h2
  · exact looseStep_shape h2
  rcases orElse_some h2 with h3 | h3
  · exact looseStep_shape h3
  rcases orElse_some h3 with h4 | h4
  · exact looseStep_shape h4
  rcases orElse_some h4 with h5 | h5
  · exact looseStep_shape h5
  · exact looseTail_shape h5

theorem normalizeToComponents_shape {s : String} {p sub : List Char}
    (h : normalizeToComponents s = some (p, sub)) : capShape p sub := by
  rw [normalizeToComponents] at h
  by_cases h0 : s.data.isEmpty = true
  · rw [if_pos h0] at h
    cases h
  rw [if_neg h0] at h
  rcases orElse_some h with h1 | h1
  · split at h1
    · exact intlCapture_shape h1
    split at h1
    · exact nationalCapture_shape h1
    split at h1
    · exact intlCapture_shape h1
    split at h1
    · exact intlCapture_shape h1
    · cases h1
  · exact looseCapture_shape h1

/-! ### validate and normalizeToComponents on known cleaned forms -/

theorem validate_of_clean {s : String} {L pr sb : List Char} {v : Nat}
    (hne : s.data ≠ []) (hsafe : ∀ c ∈ s.data, phoneish c = true)
    (hsan : sanitizeL s.data ≠ []) (hclean : cleanFormL s.data = L)
    (hloose : looseCapture L = some (pr, sb))
    (hpfxv : pfxMobile (stripFmt L) = some v) (hv : isValidMobilePfx v = true)
    (hlen : L.length ≤ 14) : validate s = true := by
  have h1 : s.data.isEmpty = false := by simpa [List.isEmpty_iff] using hne
  have h2 : isSafePhoneInput s = true := isSafe_phoneish hsafe
  have h3 : (sanitizeL s.data).isEmpty = false := by simpa [List.isEmpty_iff] using hsan
  have h4 : decide (14 < L.length) = false := by simpa using hlen
  rw [validate]
  simp only [h1, h2, h3, h4, Bool.not_true, Bool.false_eq_true, if_false, hclean]
  rw [hloose, hpfxv]
  simpa using hv

theorem n2c_of_clean_nat {s : String} {x y z : Char} {sub : List Char}
    (hx : x.toNat = 51) (hyz : pre2 y z = true) (h7 : sub.length = 7)
    (hd : ∀ c ∈ sub, isAsciiDigit c = true) (hne : s.data ≠ [])
    (hclean : cleanFormL s.data = '0' :: x :: y :: z :: sub) :
    normalizeToComponents s = some ([x, y, z], sub) := by
  have h1 : s.data.isEmpty = false := by simpa [List.isEmpty_iff] using hne
  have hnat : nationalCapture ('0' :: x :: y :: z :: sub) = some ([x, y, z], sub) := by
    rw [nationalCapture, skipOptOpen_head (by decide)]
    simpa using cap3then_digits hx hyz h7 hd
  rw [normalizeToComponents]
  simp only [h1, Bool.false_eq_true, if_false, hclean]
  simp [startsWithL, hx, hnat]

theorem n2c_of_clean_intl {s : String} {x y z : Char} {sub : List Char}
    (hx : x.toNat = 51) (hyz : pre2 y z = true) (h7 : sub.length = 7)
    (hd : ∀ c ∈ sub, isAsciiDigit c = true) (hne : s.data ≠ [])
    (hclean : cleanFormL s.data = '+' :: '9' :: '2' :: x :: y :: z :: sub) :
    normalizeToComponents s = some ([x, y, z], sub) := by
  have h1 : s.data.isEmpty = false := by simpa [List.isEmpty_iff] using hne
  have hlt := looseTail_digits hx hyz h7 hd
  rw [normalizeToComponents]
  simp only [h1, Bool.false_eq_true, if_false, hclean]
  simp [startsWithL, intlCapture, hlt]

theorem noDoubleWS_cons2 {c : Char} {l : List Char} (h : jsWS c = false) :
    noDoubleWS (c :: l) = noDoubleWS l := by
  cases l with
  | nil => rfl
  | cons d rest => simp [noDoubleWS, h]

theorem getLast_mem_of_append {A B : List Char} (hB : B ≠ []) {c : Char}
    (h : (A ++ B).getLast? = some c) : c ∈ B := by
  rw [List.getLast?_append_of_ne_nil A hB, List.getLast?_eq_head?_reverse] at h
  have := List.mem_of_mem_head? h
  simpa using this

theorem sub_ne_nil {sub : List Char} (h7 : sub.length = 7) : sub ≠ [] := by
  intro h
  rw [h] at h7
  simp at h7

theorem sub_head_digit {sub : List Char} (hd : ∀ c ∈ sub, isAsciiDigit c = true) :
    ∀ d, sub.head? = some d → jsWS d = false :=
  fun d h => digit_not_ws (hd d (List.mem_of_mem_head? h))

/-! ### Template strings are fixed points of the sanitizer -/

theorem sanitize_pack {L : List Char}
    (hdic : ∀ c ∈ L, isAsciiDigit c = true ∨ c = ' ' ∨ c = '+' ∨ c = '.' ∨ c = '-' ∨
      c = '(' ∨ c = ')')
    (hh : ∀ c, L.head? = some c → jsWS c = false)
    (hl : ∀ c, L.getLast? = some c → jsWS c = false)
    (hnd : noDoubleWS L = true) (h0 : L ≠ []) (hlen : L.length ≤ 30) :
    sanitizeL L = L ∧ cleanFormL L = L.filter (fun c => !(isFmtChar c)) ∧
      ∀ c ∈ L, phoneish c = true := by
  have ht : ∀ c ∈ L, urduToEnglishChar c = c := by
    intro c hc
    rcases hdic c hc with h | h | h | h | h | h | h
    · exact digit_translit h
    all_goals (subst h; decide)
  have hzw : ∀ c ∈ L, isZW c = false := by
    intro c hc
    rcases hdic c hc with h | h | h | h | h | h | h
    · exact digit_not_zw h
    all_goals (subst h; decide)
  have hph : ∀ c ∈ L, phoneish c = true := by
    intro c hc
    rcases hdic c hc with h | h | h | h | h | h | h
    · exact digit_phoneish h
    all_goals (subst h; decide)
  exact ⟨sanitizeL_fixed h0 hh hl ht hzw hnd hlen,
    cleanFormL_fixed h0 hh hl ht hzw hnd hlen, hph⟩

theorem sanitize_digits {L : List Char} (hd : ∀ c ∈ L, isAsciiDigit c = true)
    (h0 : L ≠ []) (hlen : L.length ≤ 30) :
    sanitizeL L = L ∧ cleanFormL L = L ∧ ∀ c ∈ L, phoneish c = true := by
  obtain ⟨hs, hc, hp⟩ := sanitize_pack (fun c hc => Or.inl (hd c hc))
    (fun c hc => digit_not_ws (hd c (List.mem_of_mem_head? hc)))
    (fun c hc => digit_not_ws (hd c (by
      rw [List.getLast?_eq_head?_reverse] at hc
      have := List.mem_of_mem_head? hc
      simpa using this)))
    (noDoubleWS_of_all (fun c hc => digit_not_ws (hd c hc))) h0 hlen
  refine ⟨hs, ?_, hp⟩
  rw [hc]
  exact List.filter_eq_self.mpr (fun c hc2 => by simp [digit_not_fmt (hd c hc2)])

theorem stripFmt_digits {L : List Char} (hd : ∀ c ∈ L, isAsciiDigit c = true) :
    stripFmt L = L :=
  List.filter_eq_self.mpr (fun c hc => by simp [digit_not_fmt (hd c hc)])

theorem tNational_ok {x y z : Char} {sub : List Char} (hx : x.toNat = 51)
    (hyz : pre2 y z = true) (h7 : sub.length = 7)
    (hd : ∀ c ∈ sub, isAsciiDigit c = true) :
    validate ⟨tNational [x, y, z] sub⟩ = true ∧
      normalizeToComponents ⟨tNational [x, y, z] sub⟩ = some ([x, y, z], sub) := by
  obtain ⟨hy, hz⟩ := pre2_digits hyz
  have hxd := digit_of_51 hx
  have hL : tNational [x, y, z] sub = '0' :: x :: y :: z :: ' ' :: sub := by
    simp [tNational]
  rw [hL]
  have hdic : ∀ c ∈ '0' :: x :: y :: z :: ' ' :: sub,
      isAsciiDigit c = true ∨ c = ' ' ∨ c = '+' ∨ c = '.' ∨ c = '-' ∨ c = '(' ∨ c = ')' := by
    intro c hc
    simp only [List.mem_cons] at hc
    rcases hc with rfl | rfl | rfl | rfl | rfl | hc
    · left; decide
    · left; exact hxd
    · left; exact hy
    · left; exact hz
    · right; left; rfl
    · left; exact hd c hc
  have hh : ∀ c, ('0' :: x :: y :: z :: ' ' :: sub).head? = some c → jsWS c = false := by
    intro c hc
    simp only [List.head?_cons, Option.some.injEq] at hc
    subst hc; decide
  have hl2 : ∀ c, ('0' :: x :: y :: z :: ' ' :: sub).getLast? = some c → jsWS c = false := by
    intro c hc
    have happ : '0' :: x :: y :: z :: ' ' :: sub = ['0', x, y, z, ' '] ++ sub := by simp
    rw [happ] at hc
    exact digit_not_ws (hd c (getLast_mem_of_append (sub_ne_nil h7) hc))
  have hnd : noDoubleWS ('0' :: x :: y :: z :: ' ' :: sub) = true := by
    rw [noDoubleWS_cons2 (by decide), noDoubleWS_cons2 (digit_not_ws hxd),
      noDoubleWS_cons2 (digit_not_ws hy), noDoubleWS_cons2 (digit_not_ws hz),
      noDoubleWS_cons (sub_head_digit hd)]
    exact noDoubleWS_of_all (fun c hc => digit_not_ws (hd c hc))
  have hlen : ('0' :: x :: y :: z :: ' ' :: sub).length ≤ 30 := by simp [h7]
  obtain ⟨hs, hcf, hph⟩ := sanitize_pack hdic hh hl2 hnd (by simp) hlen
  have h0f : isFmtChar '0' = false := by decide
  have hsf : isFmtChar ' ' = true := by decide
  have hsubf : sub.filter (fun c => !(isFmtChar c)) = sub :=
    List.filter_eq_self.mpr (fun c hc => by simp [digit_not_fmt (hd c hc)])
  have hclean : cleanFormL ('0' :: x :: y :: z :: ' ' :: sub) = '0' :: x :: y :: z :: sub := by
    rw [hcf]
    simp [List.filter_cons, h0f, hsf, digit_not_fmt hxd, digit_not_fmt hy,
      digit_not_fmt hz, hsubf]
  have hstrip : stripFmt ('0' :: x :: y :: z :: sub) = '0' :: x :: y :: z :: sub := by
    unfold stripFmt
    simp [List.filter_cons, h0f, digit_not_fmt hxd, digit_not_fmt hy,
      digit_not_fmt hz, hsubf]
  constructor
  · refine validate_of_clean (L := '0' :: x :: y :: z :: sub) (by simp) hph
      (by rw [show sanitizeL ('0' :: x :: y :: z :: ' ' :: sub) =
        '0' :: x :: y :: z :: ' ' :: sub from hs]; simp) hclean
      (looseCapture_natForm hx hyz h7 hd) ?_ (pre2_valid hyz) (by simp [h7])
    rw [hstrip]
    exact pfxMobile_natForm sub hx hyz
  · exact n2c_of_clean_nat hx hyz h7 hd (by simp) hclean

theorem tCompact_ok {x y z : Char} {sub : List Char} (hx : x.toNat = 51)
    (hyz : pre2 y z = true) (h7 : sub.length = 7)
    (hd : ∀ c ∈ sub, isAsciiDigit c = true) :
    validate ⟨tCompact [x, y, z] sub⟩ = true ∧
      normalizeToComponents ⟨tCompact [x, y, z] sub⟩ = some ([x, y, z], sub) := by
  obtain ⟨hy, hz⟩ := pre2_digits hyz
  have hxd := digit_of_51 hx
  have hL : tCompact [x, y, z] sub = '0' :: x :: y :: z :: sub := by
    simp [tCompact]
  rw [hL]
  have hdall : ∀ c ∈ '0' :: x :: y :: z :: sub, isAsciiDigit c = true := by
    intro c hc
    simp only [List.mem_cons] at hc
    rcases hc with rfl | rfl | rfl | rfl | hc
    · decide
    · exact hxd
    · exact hy
    · exact hz
    · exact hd c hc
  obtain ⟨hs, hcf, hph⟩ := sanitize_digits hdall (by simp) (by simp [h7])
  constructor
  · refine validate_of_clean (L := '0' :: x :: y :: z :: sub) (by simp) hph
      (by rw [show sanitizeL ('0' :: x :: y :: z :: sub) =
        '0' :: x :: y :: z :: sub from hs]; simp) hcf
      (looseCapture_natForm hx hyz h7 hd) ?_ (pre2_valid hyz) (by simp [h7])
    rw [stripFmt_digits hdall]
    exact pfxMobile_natForm sub hx hyz
  · exact n2c_of_clean_nat hx hyz h7 hd (by simp) hcf

theorem tIntl_ok {x y z : Char} {sub : List Char} (hx : x.toNat = 51)
    (hyz : pre2 y z = true) (h7 : sub.length = 7)
    (hd : ∀ c ∈ sub, isAsciiDigit c = true) :
    validate ⟨tIntl [x, y, z] sub⟩ = true ∧
      normalizeToComponents ⟨tIntl [x, y, z] sub⟩ = some ([x, y, z], sub) := by
  obtain ⟨hy, hz⟩ := pre2_digits hyz
  have hxd := digit_of_51 hx
  have hL : tIntl [x, y, z] sub = '+' :: '9' :: '2' :: ' ' :: x :: y :: z :: ' ' :: sub := by
    simp [tIntl]
  rw [hL]
  have hdic : ∀ c ∈ '+' :: '9' :: '2' :: ' ' :: x :: y :: z :: ' ' :: sub,
      isAsciiDigit c = true ∨ c = ' ' ∨ c = '+' ∨ c = '.' ∨ c = '-' ∨ c = '(' ∨ c = ')' := by
    intro c hc
    simp only [List.mem_cons] at hc
    rcases hc with rfl | rfl | rfl | rfl | rfl | rfl | rfl | rfl | hc
    · right; right; left; rfl
    · left; decide
    · left; decide
    · right; left; rfl
    · left; exact hxd
    · left; exact hy
    · left; exact hz
    · right; left; rfl
    · left; exact hd c hc
  have hh : ∀ c, ('+' :: '9' :: '2' :: ' ' :: x :: y :: z :: ' ' :: sub).head? = some c →
      jsWS c = false := by
    intro c hc
    simp only [List.head?_cons, Option.some.injEq] at hc
    subst hc; decide
  have hl2 : ∀ c, ('+' :: '9' :: '2' :: ' ' :: x :: y :: z :: ' ' :: sub).getLast? = some c →
      jsWS c = false := by
    intro c hc
    have happ : '+' :: '9' :: '2' :: ' ' :: x :: y :: z :: ' ' :: sub =
        ['+', '9', '2', ' ', x, y, z, ' '] ++ sub := by simp
    rw [happ] at hc
    exact digit_not_ws (hd c (getLast_mem_of_append (sub_ne_nil h7) hc))
  have hnd : noDoubleWS ('+' :: '9' :: '2' :: ' ' :: x :: y :: z :: ' ' :: sub) = true := by
    rw [noDoubleWS_cons2 (by decide), noDoubleWS_cons2 (by decide),
      noDoubleWS_cons2 (by decide),
      noDoubleWS_cons (fun d hdq => by
        simp only [List.head?_cons, Option.some.injEq] at hdq
        subst hdq; exact digit_not_ws hxd),
      noDoubleWS_cons2 (digit_not_ws hxd), noDoubleWS_cons2 (digit_not_ws hy),
      noDoubleWS_cons2 (digit_not_ws hz), noDoubleWS_cons (sub_head_digit hd)]
    exact noDoubleWS_of_all (fun c hc => digit_not_ws (hd c hc))
  have hlen : ('+' :: '9' :: '2' :: ' ' :: x :: y :: z :: ' ' :: sub).length ≤ 30 := by
    simp [h7]
  obtain ⟨hs, hcf, hph⟩ := sanitize_pack hdic hh hl2 hnd (by simp) hlen
  have hpf : isFmtChar '+' = false := by decide
  have h9f : isFmtChar '9' = false := by decide
  have h2f : isFmtChar '2' = false := by decide
  have hsf : isFmtChar ' ' = true := by decide
  have hsubf : sub.filter (fun c => !(isFmtChar c)) = sub :=
    List.filter_eq_self.mpr (fun c hc => by simp [digit_not_fmt (hd c hc)])
  have hclean : cleanFormL ('+' :: '9' :: '2' :: ' ' :: x :: y :: z :: ' ' :: sub) =
      '+' :: '9' :: '2' :: x :: y :: z :: sub := by
    rw [hcf]
    simp [List.filter_cons, hpf, h9f, h2f, hsf, digit_not_fmt hxd, digit_not_fmt hy,
      digit_not_fmt hz, hsubf]
  have hstrip : stripFmt ('+' :: '9' :: '2' :: x :: y :: z :: sub) =
      '+' :: '9' :: '2' :: x :: y :: z :: sub := by
    unfold stripFmt
    simp [List.filter_cons, hpf, h9f, h2f, digit_not_fmt hxd, digit_not_fmt hy,
      digit_not_fmt hz, hsubf]
  constructor
  · refine validate_of_clean (L := '+' :: '9' :: '2' :: x :: y :: z :: sub) (by simp) hph
      (by rw [show sanitizeL ('+' :: '9' :: '2' :: ' ' :: x :: y :: z :: ' ' :: sub) =
        '+' :: '9' :: '2' :: ' ' :: x :: y :: z :: ' ' :: sub from hs]; simp) hclean
      (looseCapture_intlForm hx hyz h7 hd) ?_ (pre2_valid hyz) (by simp [h7])
    rw [hstrip]
    exact pfxMobile_intlForm sub hx hyz
  · exact n2c_of_clean_intl hx hyz h7 hd (by simp) hclean

theorem tE164_ok {x y z : Char} {sub : List Char} (hx : x.toNat = 51)
    (hyz : pre2 y z = true) (h7 : sub.length = 7)
    (hd : ∀ c ∈ sub, isAsciiDigit c = true) :
    validate ⟨tE164 [x, y, z] sub⟩ = true ∧
      normalizeToComponents ⟨tE164 [x, y, z] sub⟩ = some ([x, y, z], sub) := by
  obtain ⟨hy, hz⟩ := pre2_digits hyz
  have hxd := digit_of_51 hx
  have hL : tE164 [x, y, z] sub = '+' :: '9' :: '2' :: x :: y :: z :: sub := by
    simp [tE164]
  rw [hL]
  have hdic : ∀ c ∈ '+' :: '9' :: '2' :: x :: y :: z :: sub,
      isAsciiDigit c = true ∨ c = ' ' ∨ c = '+' ∨ c = '.' ∨ c = '-' ∨ c = '(' ∨ c = ')' := by
    intro c hc
    simp only [List.mem_cons] at hc
    rcases hc with rfl | rfl | rfl | rfl | rfl | rfl | hc
    · right; right; left; rfl
    · left; decide
    · left; decide
    · left; exact hxd
    · left; exact hy
    · left; exact hz
    · left; exact hd c hc
  have hnws : ∀ c ∈ '+' :: '9' :: '2' :: x :: y :: z :: sub, jsWS c = false := by
    intro c hc
    simp only [List.mem_cons] at hc
    rcases hc with rfl | rfl | rfl | rfl | rfl | rfl | hc
    · decide
    · decide
    · decide
    · exact digit_not_ws hxd
    · exact digit_not_ws hy
    · exact digit_not_ws hz
    · exact digit_not_ws (hd c hc)
  obtain ⟨hs, hcf, hph⟩ := sanitize_pack hdic
    (fun c hc => hnws c (List.mem_of_mem_head? hc))
    (fun c hc => hnws c (by
      rw [List.getLast?_eq_head?_reverse] at hc
      have hm := List.mem_of_mem_head? hc
      rw [List.mem_reverse] at hm
      exact hm))
    (noDoubleWS_of_all hnws) (by simp) (by simp [h7])
  have hpf : isFmtChar '+' = false := by decide
  have h9f : isFmtChar '9' = false := by decide
  have h2f : isFmtChar '2' = false := by decide
  have hsubf : sub.filter (fun c => !(isFmtChar c)) = sub :=
    List.filter_eq_self.mpr (fun c hc => by simp [digit_not_fmt (hd c hc)])
  have hclean : cleanFormL ('+' :: '9' :: '2' :: x :: y :: z :: sub) =
      '+' :: '9' :: '2' :: x :: y :: z :: sub := by
    rw [hcf]
    simp [List.filter_cons, hpf, h9f, h2f, digit_not_fmt hxd, digit_not_fmt hy,
      digit_not_fmt hz, hsubf]
  constructor
  · refine validate_of_clean (L := '+' :: '9' :: '2' :: x :: y :: z :: sub) (by simp) hph
      (by rw [show sanitizeL ('+' :: '9' :: '2' :: x :: y :: z :: sub) =
        '+' :: '9' :: '2' :: x :: y :: z :: sub from hs]; simp) hclean
      (looseCapture_intlForm hx hyz h7 hd) ?_ (pre2_valid hyz) (by simp [h7])
    rw [show stripFmt ('+' :: '9' :: '2' :: x :: y :: z :: sub) =
      '+' :: '9' :: '2' :: x :: y :: z :: sub from by
        unfold stripFmt
        simp [List.filter_cons, hpf, h9f, h2f, digit_not_fmt hxd, digit_not_fmt hy,
          digit_not_fmt hz, hsubf]]
    exact pfxMobile_intlForm sub hx hyz
  · exact n2c_of_clean_intl hx hyz h7 hd (by simp) hclean

theorem tDots_ok {x y z : Char} {sub : List Char} (hx : x.toNat = 51)
    (hyz : pre2 y z = true) (h7 : sub.length = 7)
    (hd : ∀ c ∈ sub, isAsciiDigit c = true) :
    validate ⟨tDots [x, y, z] sub⟩ = true ∧
      normalizeToComponents ⟨tDots [x, y, z] sub⟩ = some ([x, y, z], sub) := by
  obtain ⟨hy, hz⟩ := pre2_digits hyz
  have hxd := digit_of_51 hx
  have hdt : ∀ c ∈ sub.take 3, isAsciiDigit c = true :=
    fun c hc => hd c (List.take_subset 3 sub hc)
  have hdr : ∀ c ∈ sub.drop 3, isAsciiDigit c = true :=
    fun c hc => hd c (List.drop_subset 3 sub hc)
  have hdrne : sub.drop 3 ≠ [] := by
    intro hEq
    have := congrArg List.length hEq
    simp [h7] at this
  have hL : tDots [x, y, z] sub =
      '0' :: x :: y :: z :: '.' :: (sub.take 3 ++ '.' :: sub.drop 3) := by
    simp [tDots]
  rw [hL]
  have hnws : ∀ c ∈ '0' :: x :: y :: z :: '.' :: (sub.take 3 ++ '.' :: sub.drop 3),
      jsWS c = false := by
    intro c hc
    simp only [List.mem_cons, List.mem_append] at hc
    rcases hc with rfl | rfl | rfl | rfl | rfl | hc | rfl | hc
    · decide
    · exact digit_not_ws hxd
    · exact digit_not_ws hy
    · exact digit_not_ws hz
    · decide
    · exact digit_not_ws (hdt c hc)
    · decide
    · exact digit_not_ws (hdr c hc)
  have hdic : ∀ c ∈ '0' :: x :: y :: z :: '.' :: (sub.take 3 ++ '.' :: sub.drop 3),
      isAsciiDigit c = true ∨ c = ' ' ∨ c = '+' ∨ c = '.' ∨ c = '-' ∨ c = '(' ∨ c = ')' := by
    intro c hc
    simp only [List.mem_cons, List.mem_append] at hc
    rcases hc with rfl | rfl | rfl | rfl | rfl | hc | rfl | hc
    · left; decide
    · left; exact hxd
    · left; exact hy
    · left; exact hz
    · right; right; right; left; rfl
    · left; exact hdt c hc
    · right; right; right; left; rfl
    · left; exact hdr c hc
  have hlast : ∀ c, ('0' :: x :: y :: z :: '.' ::
      (sub.take 3 ++ '.' :: sub.drop 3)).getLast? = some c → jsWS c = false := by
    intro c hc
    have happ : '0' :: x :: y :: z :: '.' :: (sub.take 3 ++ '.' :: sub.drop 3) =
        (['0', x, y, z, '.'] ++ sub.take 3 ++ ['.']) ++ sub.drop 3 := by simp
    rw [happ] at hc
    exact digit_not_ws (hdr c (getLast_mem_of_append hdrne hc))
  have hlen : ('0' :: x :: y :: z :: '.' ::
      (sub.take 3 ++ '.' :: sub.drop 3)).length ≤ 30 := by
    simp [h7]
  obtain ⟨hs, hcf, hph⟩ := sanitize_pack hdic
    (fun c hc => hnws c (List.mem_of_mem_head? hc)) hlast
    (noDoubleWS_of_all hnws) (by simp) hlen
  have hdotf : isFmtChar '.' = true := by decide
  have h0f : isFmtChar '0' = false := by decide
  have htf : (sub.take 3).filter (fun c => !(isFmtChar c)) = sub.take 3 :=
    List.filter_eq_self.mpr (fun c hc => by simp [digit_not_fmt (hdt c hc)])
  have hrf : (sub.drop 3).filter (fun c => !(isFmtChar c)) = sub.drop 3 :=
    List.filter_eq_self.mpr (fun c hc => by simp [digit_not_fmt (hdr c hc)])
  have hclean : cleanFormL ('0' :: x :: y :: z :: '.' ::
      (sub.take 3 ++ '.' :: sub.drop 3)) = '0' :: x :: y :: z :: sub := by
    rw [hcf]
    simp [List.filter_cons, List.filter_append, h0f, hdotf, digit_not_fmt hxd,
      digit_not_fmt hy, digit_not_fmt hz, htf, hrf, List.take_append_drop]
  constructor
  · refine validate_of_clean (L := '0' :: x :: y :: z :: sub) (by simp) hph
      (by rw [show sanitizeL ('0' :: x :: y :: z :: '.' ::
        (sub.take 3 ++ '.' :: sub.drop 3)) = '0' :: x :: y :: z :: '.' ::
        (sub.take 3 ++ '.' :: sub.drop 3) from hs]; simp) hclean
      (looseCapture_natForm hx hyz h7 hd) ?_ (pre2_valid hyz) (by simp [h7])
    rw [show stripFmt ('0' :: x :: y :: z :: sub) = '0' :: x :: y :: z :: sub from
      stripFmt_digits (fun c hc => by
        simp only [List.mem_cons] at hc
        rcases hc with rfl | rfl | rfl | rfl | hc
        · decide
        · exact hxd
        · exact hy
        · exact hz
        · exact hd c hc)]
    exact pfxMobile_natForm sub hx hyz
  · exact n2c_of_clean_nat hx hyz h7 hd (by simp) hclean

theorem tDashes_ok {x y z : Char} {sub : List Char} (hx : x.toNat = 51)
    (hyz : pre2 y z = true) (h7 : sub.length = 7)
    (hd : ∀ c ∈ sub, isAsciiDigit c = true) :
    validate ⟨tDashes [x, y, z] sub⟩ = true ∧
      normalizeToComponents ⟨tDashes [x, y, z] sub⟩ = some ([x, y, z], sub) := by
  obtain ⟨hy, hz⟩ := pre2_digits hyz
  have hxd := digit_of_51 hx
  have hdt : ∀ c ∈ sub.take 3, isAsciiDigit c = true :=
    fun c hc => hd c (List.take_subset 3 sub hc)
  have hdr : ∀ c ∈ sub.drop 3, isAsciiDigit c = true :=
    fun c hc => hd c (List.drop_subset 3 sub hc)
  have hdrne : sub.drop 3 ≠ [] := by
    intro hEq
    have := congrArg List.length hEq
    simp [h7] at this
  have hL : tDashes [x, y, z] sub =
      '0' :: x :: y :: z :: '-' :: (sub.take 3 ++ '-' :: sub.drop 3) := by
    simp [tDashes]
  rw [hL]
  have hnws : ∀ c ∈ '0' :: x :: y :: z :: '-' :: (sub.take 3 ++ '-' :: sub.drop 3),
      jsWS c = false := by
    intro c hc
    simp only [List.mem_cons, List.mem_append] at hc
    rcases hc with rfl | rfl | rfl | rfl | rfl | hc | rfl | hc
    · decide
    · exact digit_not_ws hxd
    · exact digit_not_ws hy
    · exact digit_not_ws hz
    · decide
    · exact digit_not_ws (hdt c hc)
    · decide
    · exact digit_not_ws (hdr c hc)
  have hdic : ∀ c ∈ '0' :: x :: y :: z :: '-' :: (sub.take 3 ++ '-' :: sub.drop 3),
      isAsciiDigit c = true ∨ c = ' ' ∨ c = '+' ∨ c = '.' ∨ c = '-' ∨ c = '(' ∨ c = ')' := by
    intro c hc
    simp only [List.mem_cons, List.mem_append] at hc
    rcases hc with rfl | rfl | rfl | rfl | rfl | hc | rfl | hc
    · left; decide
    · left; exact hxd
    · left; exact hy
    · left; exact hz
    · right; right; right; right; left; rfl
    · left; exact hdt c hc
    · right; right; right; right; left; rfl
    · left; exact hdr c hc
  have hlast : ∀ c, ('0' :: x :: y :: z :: '-' ::
      (sub.take 3 ++ '-' :: sub.drop 3)).getLast? = some c → jsWS c = false := by
    intro c hc
    have happ : '0' :: x :: y :: z :: '-' :: (sub.take 3 ++ '-' :: sub.drop 3) =
        (['0', x, y, z, '-'] ++ sub.take 3 ++ ['-']) ++ sub.drop 3 := by simp
    rw [happ] at hc
    exact digit_not_ws (hdr c (getLast_mem_of_append hdrne hc))
  have hlen : ('0' :: x :: y :: z :: '-' ::
      (sub.take 3 ++ '-' :: sub.drop 3)).length ≤ 30 := by
    simp [h7]
  obtain ⟨hs, hcf, hph⟩ := sanitize_pack hdic
    (fun c hc => hnws c (List.mem_of_mem_head? hc)) hlast
    (noDoubleWS_of_all hnws) (by simp) hlen
  have hdashf : isFmtChar '-' = true := by decide
  have h0f : isFmtChar '0' = false := by decide
  have htf : (sub.take 3).filter (fun c => !(isFmtChar c)) = sub.take 3 :=
    List.filter_eq_self.mpr (fun c hc => by simp [digit_not_fmt (hdt c hc)])
  have hrf : (sub.drop 3).filter (fun c => !(isFmtChar c)) = sub.drop 3 :=
    List.filter_eq_self.mpr (fun c hc => by simp [digit_not_fmt (hdr c hc)])
  have hclean : cleanFormL ('0' :: x :: y :: z :: '-' ::
      (sub.take 3 ++ '-' :: sub.drop 3)) = '0' :: x :: y :: z :: sub := by
    rw [hcf]
    simp [List.filter_cons, List.filter_append, h0f, hdashf, digit_not_fmt hxd,
      digit_not_fmt hy, digit_not_fmt hz, htf, hrf, List.take_append_drop]
  constructor
  · refine validate_of_clean (L := '0' :: x :: y :: z :: sub) (by simp) hph
      (by rw [show sanitizeL ('0' :: x :: y :: z :: '-' ::
        (sub.take 3 ++ '-' :: sub.drop 3)) = '0' :: x :: y :: z :: '-' ::
        (sub.take 3 ++ '-' :: sub.drop 3) from hs]; simp) hclean
      (looseCapture_natForm hx hyz h7 hd) ?_ (pre2_valid hyz) (by simp [h7])
    rw [show stripFmt ('0' :: x :: y :: z :: sub) = '0' :: x :: y :: z :: sub from
      stripFmt_digits (fun c hc => by
        simp only [List.mem_cons] at hc
        rcases hc with rfl | rfl | rfl | rfl | hc
        · decide
        · exact hxd
        · exact hy
        · exact hz
        · exact hd c hc)]
    exact pfxMobile_natForm sub hx hyz
  · exact n2c_of_clean_nat hx hyz h7 hd (by simp) hclean

theorem tParens_ok {x y z : Char} {sub : List Char} (hx : x.toNat = 51)
    (hyz : pre2 y z = true) (h7 : sub.length = 7)
    (hd : ∀ c ∈ sub, isAsciiDigit c = true) :
    validate ⟨tParens [x, y, z] sub⟩ = true ∧
      normalizeToComponents ⟨tParens [x, y, z] sub⟩ = some ([x, y, z], sub) := by
  obtain ⟨hy, hz⟩ := pre2_digits hyz
  have hxd := digit_of_51 hx
  have hL : tParens [x, y, z] sub = '(' :: '0' :: x :: y :: z :: ')' :: ' ' :: sub := by
    simp [tParens]
  rw [hL]
  have hdic : ∀ c ∈ '(' :: '0' :: x :: y :: z :: ')' :: ' ' :: sub,
      isAsciiDigit c = true ∨ c = ' ' ∨ c = '+' ∨ c = '.' ∨ c = '-' ∨ c = '(' ∨ c = ')' := by
    intro c hc
    simp only [List.mem_cons] at hc
    rcases hc with rfl | rfl | rfl | rfl | rfl | rfl | rfl | hc
    · right; right; right; right; right; left; rfl
    · left; decide
    · left; exact hxd
    · left; exact hy
    · left; exact hz
    · right; right; right; right; right; right; rfl
    · right; left; rfl
    · left; exact hd c hc
  have hh : ∀ c, ('(' :: '0' :: x :: y :: z :: ')' :: ' ' :: sub).head? = some c →
      jsWS c = false := by
    intro c hc
    simp only [List.head?_cons, Option.some.injEq] at hc
    subst hc; decide
  have hl2 : ∀ c, ('(' :: '0' :: x :: y :: z :: ')' :: ' ' :: sub).getLast? = some c →
      jsWS c = false := by
    intro c hc
    have happ : '(' :: '0' :: x :: y :: z :: ')' :: ' ' :: sub =
        ['(', '0', x, y, z, ')', ' '] ++ sub := by simp
    rw [happ] at hc
    exact digit_not_ws (hd c (getLast_mem_of_append (sub_ne_nil h7) hc))
  have hnd : noDoubleWS ('(' :: '0' :: x :: y :: z :: ')' :: ' ' :: sub) = true := by
    rw [noDoubleWS_cons2 (by decide), noDoubleWS_cons2 (by decide),
      noDoubleWS_cons2 (digit_not_ws hxd), noDoubleWS_cons2 (digit_not_ws hy),
      noDoubleWS_cons2 (digit_not_ws hz), noDoubleWS_cons2 (by decide),
      noDoubleWS_cons (sub_head_digit hd)]
    exact noDoubleWS_of_all (fun c hc => digit_not_ws (hd c hc))
  have hlen : ('(' :: '0' :: x :: y :: z :: ')' :: ' ' :: sub).length ≤ 30 := by
    simp [h7]
  obtain ⟨hs, hcf, hph⟩ := sanitize_pack hdic hh hl2 hnd (by simp) hlen
  have hopf : isFmtChar '(' = true := by decide
  have hclf : isFmtChar ')' = true := by decide
  have hsf : isFmtChar ' ' = true := by decide
  have h0f : isFmtChar '0' = false := by decide
  have hsubf : sub.filter (fun c => !(isFmtChar c)) = sub :=
    List.filter_eq_self.mpr (fun c hc => by simp [digit_not_fmt (hd c hc)])
  have hclean : cleanFormL ('(' :: '0' :: x :: y :: z :: ')' :: ' ' :: sub) =
      '0' :: x :: y :: z :: sub := by
    rw [hcf]
    simp [List.filter_cons, hopf, hclf, hsf, h0f, digit_not_fmt hxd, digit_not_fmt hy,
      digit_not_fmt hz, hsubf]
  constructor
  · refine validate_of_clean (L := '0' :: x :: y :: z :: sub) (by simp) hph
      (by rw [show sanitizeL ('(' :: '0' :: x :: y :: z :: ')' :: ' ' :: sub) =
        '(' :: '0' :: x :: y :: z :: ')' :: ' ' :: sub from hs]; simp) hclean
      (looseCapture_natForm hx hyz h7 hd) ?_ (pre2_valid hyz) (by simp [h7])
    rw [show stripFmt ('0' :: x :: y :: z :: sub) = '0' :: x :: y :: z :: sub from
      stripFmt_digits (fun c hc => by
        simp only [List.mem_cons] at hc
        rcases hc with rfl | rfl | rfl | rfl | hc
        · decide
        · exact hxd
        · exact hy
        · exact hz
        · exact hd c hc)]
    exact pfxMobile_natForm sub hx hyz
  · exact n2c_of_clean_nat hx hyz h7 hd (by simp) hclean

theorem render_ok (st : String) {x y z : Char} {sub : List Char} (hx : x.toNat = 51)
    (hyz : pre2 y z = true) (h7 : sub.length = 7)
    (hd : ∀ c ∈ sub, isAsciiDigit c = true) :
    validate ⟨render st [x, y, z] sub⟩ = true ∧
      normalizeToComponents ⟨render st [x, y, z] sub⟩ = some ([x, y, z], sub) := by
  unfold render
  split_ifs
  · exact tNational_ok hx hyz h7 hd
  · exact tIntl_ok hx hyz h7 hd
  · exact tE164_ok hx hyz h7 hd
  · exact tCompact_ok hx hyz h7 hd
  · exact tDots_ok hx hyz h7 hd
  · exact tDashes_ok hx hyz h7 hd
  · exact tParens_ok hx hyz h7 hd
  · exact tNational_ok hx hyz h7 hd

theorem orElse_some_right {α : Type} {a b : Option α} {v : α} (h : b = some v) :
    ∃ w, (a <|> b) = some w := by
  cases a with
  | none => exact ⟨v, by simpa using h⟩
  | some u => exact ⟨u, rfl⟩

theorem n2c_some_of_validate {s : String} (h : validate s = true) :
    ∃ pr sb, normalizeToComponents s = some (pr, sb) := by
  rw [validate] at h
  by_cases h1 : s.data.isEmpty = true
  · rw [if_pos h1] at h; cases h
  rw [if_neg h1] at h
  by_cases h2 : (!(isSafePhoneInput s)) = true
  · rw [if_pos h2] at h; cases h
  rw [if_neg h2] at h
  by_cases h3 : (sanitizeL s.data).isEmpty = true
  · rw [if_pos h3] at h; cases h
  rw [if_neg h3] at h
  by_cases h4 : decide (14 < (cleanFormL s.data).length) = true
  · rw [if_pos h4] at h; cases h
  rw [if_neg h4] at h
  have hloose : (looseCapture (cleanFormL s.data)).isSome = true :=
    (Bool.and_eq_true_iff.mp h).1
  obtain ⟨v, hsome⟩ := Option.isSome_iff_exists.mp hloose
  have hne : s.data.isEmpty = false := by simpa using h1
  rw [normalizeToComponents]
  simp only [hne, Bool.false_eq_true, if_false]
  obtain ⟨w, hw⟩ := orElse_some_right (b := looseCapture (cleanFormL s.data)) hsome
  exact ⟨w.1, w.2, hw⟩

theorem format_eval {N st : String} {p sub : List Char}
    (hval : validate N = true) (hn2c : normalizeToComponents N = some (p, sub)) :
    format N st = Except.ok ⟨render st p sub⟩ := by
  rw [format, hval]
  simp only [Bool.not_true, Bool.false_eq_true, if_false, hn2c]

theorem format_reparse_core {N s1 s2 F1 : String} (h : format N s1 = Except.ok F1) :
    format F1 s2 = format N s2 := by
  rw [format] at h
  cases hvN : validate N with
  | false =>
    rw [hvN] at h
    simp at h
  | true =>
    rw [hvN] at h
    simp only [Bool.not_true, Bool.false_eq_true, if_false] at h
    cases hn : normalizeToComponents N with
    | none =>
      rw [hn] at h
      simp at h
    | some pr =>
      obtain ⟨p, sub⟩ := pr
      rw [hn] at h
      simp only [Except.ok.injEq] at h
      obtain ⟨xx, yy, zz, hp, hx, hyz, h7, hd⟩ := normalizeToComponents_shape hn
      subst hp
      subst h
      obtain ⟨hvF, hnF⟩ := render_ok s1 hx hyz h7 hd
      rw [format_eval hvF hnF, format_eval hvN hn]

/-! ### Normalization of admissible renderings -/

theorem fmtR_not_dplus {c : Char} (h : fmtR c = true) : isDigitPlus c = false := by
  simp [fmtR] at h
  simp [isDigitPlus, isAsciiDigit, inRange]
  omega

theorem dplus_not_fmtR {c : Char} (h : isDigitPlus c = true) : fmtR c = false := by
  simp [isDigitPlus, isAsciiDigit, inRange] at h
  simp [fmtR]
  omega

theorem fmtR_translit {c : Char} (h : fmtR c = true) : urduToEnglishChar c = c := by
  simp [fmtR] at h
  rw [urduToEnglishChar, if_neg]
  omega

theorem dplus_translit {c : Char} (h : isDigitPlus c = true) : urduToEnglishChar c = c := by
  simp [isDigitPlus, isAsciiDigit, inRange] at h
  rw [urduToEnglishChar, if_neg]
  omega

theorem normalize_rendering_core {y z : Char} {sub base r : List Char}
    (hy : isAsciiDigit y = true) (hz : isAsciiDigit z = true)
    (h7 : sub.length = 7) (hd : ∀ c ∈ sub, isAsciiDigit c = true)
    (hbase : base ∈ admissibleBases y z sub)
    (hr : r.filter (fun c => !(fmtR c)) = base)
    (hlen : r.length ≤ 30) :
    normalizePhoneNumber ⟨r⟩ = ⟨'0' :: '3' :: y :: z :: sub⟩ := by
  have hsubd : ∀ c ∈ sub, isDigitPlus c = true := fun c hc => digit_dplus (hd c hc)
  simp only [admissibleBases, List.mem_cons, List.not_mem_nil, or_false] at hbase
  have hbd : ∀ c ∈ base, isDigitPlus c = true := by
    rcases hbase with hb | hb | hb | hb <;> subst hb <;> intro c hc <;>
      simp only [List.mem_cons] at hc
    · rcases hc with rfl | rfl | rfl | rfl | hc
      · decide
      · decide
      · exact digit_dplus hy
      · exact digit_dplus hz
      · exact hsubd c hc
    · rcases hc with rfl | rfl | rfl | rfl | rfl | rfl | hc
      · decide
      · decide
      · decide
      · decide
      · exact digit_dplus hy
      · exact digit_dplus hz
      · exact hsubd c hc
    · rcases hc with rfl | rfl | rfl | rfl | rfl | hc
      · decide
      · decide
      · decide
      · exact digit_dplus hy
      · exact digit_dplus hz
      · exact hsubd c hc
    · rcases hc with rfl | rfl | rfl | rfl | rfl | rfl | rfl | hc
      · decide
      · decide
      · decide
      · decide
      · decide
      · exact digit_dplus hy
      · exact digit_dplus hz
      · exact hsubd c hc
  have hdic : ∀ c ∈ r, fmtR c = true ∨ isDigitPlus c = true := by
    intro c hc
    by_cases hf : fmtR c = true
    · exact Or.inl hf
    · refine Or.inr (hbd c ?_)
      rw [← hr]
      exact List.mem_filter.mpr ⟨hc, by simp [eq_false_of_ne_true hf]⟩
  have hfilter : r.filter isDigitPlus = base := by
    rw [← hr]
    refine (List.filter_congr ?_).symm
    intro c hc
    rcases hdic c hc with h | h
    · simp [h, fmtR_not_dplus h]
    · simp [h, dplus_not_fmtR h]
  have ht : ∀ c ∈ r, urduToEnglishChar c = c := by
    intro c hc
    rcases hdic c hc with h | h
    · exact fmtR_translit h
    · exact dplus_translit h
  have hcleaned : ((sanitizeL r).map urduToEnglishChar).filter isDigitPlus = base := by
    rw [filterDP_sanitize ht hlen, hfilter]
  have hbase_ne : base ≠ [] := by
    rcases hbase with hb | hb | hb | hb <;> subst hb <;> simp
  have hrne : r.isEmpty = false := by
    cases hre : r.isEmpty
    · rfl
    · exfalso
      apply hbase_ne
      rw [← hr, List.isEmpty_iff.mp hre]
      rfl
  have hsanne : (sanitizeL r).isEmpty = false := by
    cases hse : (sanitizeL r).isEmpty
    · rfl
    · exfalso
      apply hbase_ne
      rw [← hcleaned, List.isEmpty_iff.mp hse]
      rfl
  rw [normalizePhoneNumber]
  simp only [String.data]
  simp only [hrne, Bool.false_eq_true, if_false]
  simp only [hsanne, Bool.false_eq_true, if_false]
  rw [hcleaned]
  have c0 : startsWithL ['0'] ('0' :: '3' :: y :: z :: sub) = true := rfl
  rcases hbase with hb | hb | hb | hb <;> subst hb
  · have c1 : startsWithL ['+', '9', '2'] ('0' :: '3' :: y :: z :: sub) = false := rfl
    have c2 : startsWithL ['9', '2'] ('0' :: '3' :: y :: z :: sub) = false := rfl
    have c3 : startsWithL ['0', '0', '9', '2'] ('0' :: '3' :: y :: z :: sub) = false := rfl
    simp [c1, c2, c3, c0, h7]
  · have c1 : startsWithL ['+', '9', '2'] ('+' :: '9' :: '2' :: '3' :: y :: z :: sub) =
        true := rfl
    simp [c1, c0, h7]
  · have c1 : startsWithL ['+', '9', '2'] ('9' :: '2' :: '3' :: y :: z :: sub) = false := rfl
    have c2 : startsWithL ['9', '2'] ('9' :: '2' :: '3' :: y :: z :: sub) = true := rfl
    simp [c1, c2, c0, h7]
  · have c1 : startsWithL ['+', '9', '2']
        ('0' :: '0' :: '9' :: '2' :: '3' :: y :: z :: sub) = false := rfl
    have c2 : startsWithL ['9', '2'] ('0' :: '0' :: '9' :: '2' :: '3' :: y :: z :: sub) =
        false := rfl
    have c3 : startsWithL ['0', '0', '9', '2']
        ('0' :: '0' :: '9' :: '2' :: '3' :: y :: z :: sub) = true := rfl
    simp [c1, c2, c3, c0, h7]

/-! ### Urdu digit rendering -/

theorem e2u_toNat {c : Char} (h : isAsciiDigit c = true) :
    (englishToUrduChar c).toNat = c.toNat + 1728 := by
  have hb := digit_bounds h
  rw [englishToUrduChar, if_pos (by omega)]
  rw [toNat_ofNat_small (by omega)]
  omega

theorem translit_e2u {c : Char} (h : isAsciiDigit c = true) :
    urduToEnglishChar (englishToUrduChar c) = c := by
  have hb := digit_bounds h
  have ht := e2u_toNat h
  rw [urduToEnglishChar, if_pos (by omega), ht]
  rw [show c.toNat + 1728 - 1776 + 48 = c.toNat from by omega]
  exact Char.ofNat_toNat c

theorem urdu_mem_facts {N : List Char} (hd : ∀ c ∈ N, isAsciiDigit c = true) :
    ∀ c ∈ N.map englishToUrduChar, 1776 ≤ c.toNat ∧ c.toNat ≤ 1785 := by
  intro c hc
  obtain ⟨a, ha, rfl⟩ := List.mem_map.mp hc
  have hb := digit_bounds (hd a ha)
  rw [e2u_toNat (hd a ha)]
  omega

theorem urdu_not_ws {c : Char} (h : 1776 ≤ c.toNat ∧ c.toNat ≤ 1785) : jsWS c = false := by
  simp [jsWS, inRange]
  omega

theorem urdu_phoneish {c : Char} (h : 1776 ≤ c.toNat ∧ c.toNat ≤ 1785) :
    phoneish c = true := by
  simp [phoneish, inRange]
  omega

theorem sanitizeL_urdu {N : List Char} (hd : ∀ c ∈ N, isAsciiDigit c = true)
    (h0 : N ≠ []) (hlen : N.length ≤ 30) :
    sanitizeL (N.map englishToUrduChar) = N := by
  have hu := urdu_mem_facts hd
  have hne : (N.map englishToUrduChar).isEmpty = false := by
    simp [List.isEmpty_iff, h0]
  have hnws : ∀ c ∈ N.map englishToUrduChar, jsWS c = false :=
    fun c hc => urdu_not_ws (hu c hc)
  unfold sanitizeL
  rw [if_neg (by simp [hne])]
  rw [trimL_id (fun c hc => hnws c (List.mem_of_mem_head? hc))
    (fun c hc => hnws c (by
      rw [List.getLast?_eq_head?_reverse] at hc
      have hm := List.mem_of_mem_head? hc
      rw [List.mem_reverse] at hm
      exact hm))]
  rw [show (N.map englishToUrduChar).map urduToEnglishChar = N from by
    rw [List.map_map]
    rw [List.map_congr_left (fun a ha =>
      show (urduToEnglishChar ∘ englishToUrduChar) a = a from translit_e2u (hd a ha))]
    simp]
  rw [List.filter_eq_self.mpr (fun c hc => by simp [digit_not_zw (hd c hc)])]
  unfold collapseWS
  rw [collapseGo_id _ _ (noDoubleWS_of_all (fun c hc => digit_not_ws (hd c hc)))]
  exact List.take_of_length_le hlen

/-! ### validate on canonical digit strings -/

theorem validate_natDigits {y z : Char} {sub : List Char} (hyz : pre2 y z = true)
    (h7 : sub.length = 7) (hd : ∀ c ∈ sub, isAsciiDigit c = true) :
    validate ⟨'0' :: '3' :: y :: z :: sub⟩ = true := by
  obtain ⟨hy, hz⟩ := pre2_digits hyz
  have hdall : ∀ c ∈ '0' :: '3' :: y :: z :: sub, isAsciiDigit c = true := by
    intro c hc
    simp only [List.mem_cons] at hc
    rcases hc with rfl | rfl | rfl | rfl | hc
    · decide
    · decide
    · exact hy
    · exact hz
    · exact hd c hc
  obtain ⟨hs, hcf, hph⟩ := sanitize_digits hdall (by simp) (by simp [h7])
  refine validate_of_clean (L := '0' :: '3' :: y :: z :: sub) (by simp) hph
    (by rw [hs]; simp) hcf
    (looseCapture_natForm (by decide) hyz h7 hd) ?_ (pre2_valid hyz) (by simp [h7])
  rw [stripFmt_digits hdall]
  exact pfxMobile_natForm sub (by decide) hyz

theorem validate_bareDigits {y z : Char} {sub : List Char} (hyz : pre2 y z = true)
    (h7 : sub.length = 7) (hd : ∀ c ∈ sub, isAsciiDigit c = true) :
    validate ⟨'3' :: y :: z :: sub⟩ = true := by
  obtain ⟨hy, hz⟩ := pre2_digits hyz
  have hdall : ∀ c ∈ '3' :: y :: z :: sub, isAsciiDigit c = true := by
    intro c hc
    simp only [List.mem_cons] at hc
    rcases hc with rfl | rfl | rfl | hc
    · decide
    · exact hy
    · exact hz
    · exact hd c hc
  obtain ⟨hs, hcf, hph⟩ := sanitize_digits hdall (by simp) (by simp [h7])
  refine validate_of_clean (L := '3' :: y :: z :: sub) (by simp) hph
    (by rw [hs]; simp) hcf
    (looseCapture_bareForm (by decide) hyz h7 hd) ?_ (pre2_valid hyz) (by simp [h7])
  rw [stripFmt_digits hdall]
  exact pfxMobile_bareForm sub (by decide) hyz

theorem validate_z92Digits {y z : Char} {sub : List Char} (hyz : pre2 y z = true)
    (h7 : sub.length = 7) (hd : ∀ c ∈ sub, isAsciiDigit c = true) :
    validate ⟨'0' :: '0' :: '9' :: '2' :: '3' :: y :: z :: sub⟩ = true := by
  obtain ⟨hy, hz⟩ := pre2_digits hyz
  have hdall : ∀ c ∈ '0' :: '0' :: '9' :: '2' :: '3' :: y :: z :: sub,
      isAsciiDigit c = true := by
    intro c hc
    simp only [List.mem_cons] at hc
    rcases hc with rfl | rfl | rfl | rfl | rfl | rfl | rfl | hc
    · decide
    · decide
    · decide
    · decide
    · decide
    · exact hy
    · exact hz
    · exact hd c hc
  obtain ⟨hs, hcf, hph⟩ := sanitize_digits hdall (by simp) (by simp [h7])
  refine validate_of_clean (L := '0' :: '0' :: '9' :: '2' :: '3' :: y :: z :: sub)
    (by simp) hph
    (by rw [hs]; simp) hcf
    (looseCapture_z92Form (by decide) hyz h7 hd) ?_ (pre2_valid hyz) (by simp [h7])
  rw [stripFmt_digits hdall]
  exact pfxMobile_z92Form sub (by decide) hyz

theorem validate_urdu_natDigits {y z : Char} {sub : List Char} (hyz : pre2 y z = true)
    (h7 : sub.length = 7) (hd : ∀ c ∈ sub, isAsciiDigit c = true) :
    validate ⟨('0' :: '3' :: y :: z :: sub).map englishToUrduChar⟩ = true := by
  obtain ⟨hy, hz⟩ := pre2_digits hyz
  have hdall : ∀ c ∈ '0' :: '3' :: y :: z :: sub, isAsciiDigit c = true := by
    intro c hc
    simp only [List.mem_cons] at hc
    rcases hc with rfl | rfl | rfl | rfl | hc
    · decide
    · decide
    · exact hy
    · exact hz
    · exact hd c hc
  have hu := urdu_mem_facts hdall
  have hs : sanitizeL (('0' :: '3' :: y :: z :: sub).map englishToUrduChar) =
      '0' :: '3' :: y :: z :: sub :=
    sanitizeL_urdu hdall (by simp) (by simp [h7])
  have hclean : cleanFormL (('0' :: '3' :: y :: z :: sub).map englishToUrduChar) =
      '0' :: '3' :: y :: z :: sub := by
    unfold cleanFormL
    rw [hs]
    rw [show ('0' :: '3' :: y :: z :: sub).map urduToEnglishChar =
      '0' :: '3' :: y :: z :: sub from by
        rw [List.map_congr_left (fun a ha => digit_translit (hdall a ha))]
        simp]
    exact List.filter_eq_self.mpr (fun c hc => by simp [digit_not_fmt (hdall c hc)])
  refine validate_of_clean (L := '0' :: '3' :: y :: z :: sub) (by simp)
    (fun c hc => urdu_phoneish (hu c hc)) (by rw [hs]; simp) hclean
    (looseCapture_natForm (by decide) hyz h7 hd) ?_ (pre2_valid hyz) (by simp [h7])
  rw [stripFmt_digits hdall]
  exact pfxMobile_natForm sub (by decide) hyz

theorem normalize_bareDigits {y z : Char} {sub : List Char}
    (hy : isAsciiDigit y = true) (hz : isAsciiDigit z = true)
    (h7 : sub.length = 7) (hd : ∀ c ∈ sub, isAsciiDigit c = true) :
    normalizePhoneNumber ⟨'3' :: y :: z :: sub⟩ = "" := by
  have hdall : ∀ c ∈ '3' :: y :: z :: sub, isAsciiDigit c = true := by
    intro c hc
    simp only [List.mem_cons] at hc
    rcases hc with rfl | rfl | rfl | hc
    · decide
    · exact hy
    · exact hz
    · exact hd c hc
  obtain ⟨hs, hcf, hph⟩ := sanitize_digits hdall (by simp) (by simp [h7])
  rw [normalizePhoneNumber]
  simp only [String.data]
  rw [if_neg (by simp)]
  rw [if_neg (by rw [hs]; simp)]
  rw [hs]
  rw [show ('3' :: y :: z :: sub).map urduToEnglishChar = '3' :: y :: z :: sub from by
    rw [List.map_congr_left (fun a ha => digit_translit (hdall a ha))]
    simp]
  rw [List.filter_eq_self.mpr (fun c hc => digit_dplus (hdall c hc))]
  have c1 : startsWithL ['+', '9', '2'] ('3' :: y :: z :: sub) = false := rfl
  have c2 : startsWithL ['9', '2'] ('3' :: y :: z :: sub) = false := rfl
  have c3 : startsWithL ['0', '0', '9', '2'] ('3' :: y :: z :: sub) = false := rfl
  have c4 : startsWithL ['0'] ('3' :: y :: z :: sub) = false := rfl
  simp [c1, c2, c3, c4]

theorem validate_long_false {s : String} (h : 14 < (cleanFormL s.data).length) :
    validate s = false := by
  rw [validate]
  by_cases h1 : s.data.isEmpty = true
  · rw [if_pos h1]
  rw [if_neg h1]
  by_cases h2 : (!(isSafePhoneInput s)) = true
  · rw [if_pos h2]
  rw [if_neg h2]
  by_cases h3 : (sanitizeL s.data).isEmpty = true
  · rw [if_pos h3]
  rw [if_neg h3]
  rw [if_pos (by simpa using h)]

theorem validate_unsafe_false {s : String} (h : isSafePhoneInput s = false) :
    validate s = false := by
  rw [validate]
  by_cases h1 : s.data.isEmpty = true
  · rw [if_pos h1]
  rw [if_neg h1]
  rw [if_pos (by simp [h])]

theorem parse_none_of_invalid {s : String} (h : validate s = false) : parse s = none := by
  rw [parse, h]
  rfl

theorem detectOperator_none_of_invalid {s : String} (h : validate s = false) :
    detectOperator s = none := by
  rw [detectOperator, h]
  rfl

theorem parse_bareDigits {y z : Char} {sub : List Char} (hyz : pre2 y z = true)
    (h7 : sub.length = 7) (hd : ∀ c ∈ sub, isAsciiDigit c = true) :
    parse ⟨'3' :: y :: z :: sub⟩ = none := by
  obtain ⟨hy, hz⟩ := pre2_digits hyz
  have hv := validate_bareDigits hyz h7 hd
  have hn := normalize_bareDigits hy hz h7 hd
  rw [parse, hv, hn]
  rfl

theorem normalize_tail_shape {B : List Char} {r : String}
    (hB : ∀ c ∈ B, isDigitPlus c = true)
    (h : (if (!startsWithL ['0'] B) = true then ""
          else if decide (11 < B.length) = true then ""
          else if (!decide (B.length = 11)) = true then "" else (⟨B⟩ : String)) = r)
    (hne : r ≠ "") :
    r.length = 11 ∧ startsWithL ['0'] r.data = true ∧
      ∀ c ∈ r.data, isDigitPlus c = true := by
  split at h
  · exact absurd h.symm hne
  split at h
  · exact absurd h.symm hne
  split at h
  · exact absurd h.symm hne
  rename_i hc0 hc1 hc2
  subst h
  have hc0b : startsWithL ['0'] B = true := by simpa using hc0
  have hc2b : B.length = 11 := by simpa using hc2
  exact ⟨by simpa [String.length] using hc2b, hc0b, hB⟩

theorem normalize_shape_core {s r : String} (h : normalizePhoneNumber s = r)
    (hne : r ≠ "") :
    r.length = 11 ∧ startsWithL ['0'] r.data = true ∧
      ∀ c ∈ r.data, isDigitPlus c = true := by
  simp only [normalizePhoneNumber] at h
  split at h
  · exact absurd h.symm hne
  split at h
  · exact absurd h.symm hne
  have hC0 : ∀ c ∈ ((sanitizeL s.data).map urduToEnglishChar).filter isDigitPlus,
      isDigitPlus c = true := fun c hc => (List.mem_filter.mp hc).2
  split at h
  · refine normalize_tail_shape ?_ h hne
    intro c hc
    rcases List.mem_cons.mp hc with rfl | hc
    · decide
    · exact hC0 c (List.drop_subset _ _ hc)
  split at h
  · refine normalize_tail_shape ?_ h hne
    intro c hc
    rcases List.mem_cons.mp hc with rfl | hc
    · decide
    · exact hC0 c (List.drop_subset _ _ hc)
  split at h
  · refine normalize_tail_shape ?_ h hne
    intro c hc
    rcases List.mem_cons.mp hc with rfl | hc
    · decide
    · exact hC0 c (List.drop_subset _ _ hc)
  · exact normalize_tail_shape hC0 h hne

/-! ## Claim theorems -/

/-- C1 counterexample: the claim as stated fails for renderings longer than
30 characters. Twenty underscores followed by 03001234567 is an admissible
rendering of the valid national number 03001234567 (only underscores mixed
in), yet normalize truncates to 30 characters and returns the empty string
instead of the number. -/
theorem normalize_rendering_over30_cex :
    ("____________________03001234567" : String).data.filter (fun c => !(fmtR c)) =
        ("03001234567" : String).data ∧
      normalizePhoneNumber "____________________03001234567" = "" ∧
      normalizePhoneNumber "____________________03001234567" ≠ "03001234567" := by
  refine ⟨by decide, by decide, by decide⟩

/-- C1 (amended): for every valid national number N = 0·3yz·sub (prefix in
the carrier union, seven-digit subscriber) and every admissible rendering
of one of the four base forms (leading-zero national, +92, bare 92, 0092)
with any mix of spaces, dashes, dots, parentheses and underscores,
normalize returns the canonical N — provided the rendering is at most 30
characters long (the sanitizer's DoS truncation otherwise cuts digits).
The three concrete examples of the claim hold. -/
theorem normalize_admissible_renderings :
    (∀ (y z : Char) (sub base r : List Char),
        isAsciiDigit y = true → isAsciiDigit z = true →
        isValidMobilePfx (300 + 10 * (y.toNat - 48) + (z.toNat - 48)) = true →
        sub.length = 7 → (∀ c ∈ sub, isAsciiDigit c = true) →
        base ∈ admissibleBases y z sub →
        r.filter (fun c => !(fmtR c)) = base →
        r.length ≤ 30 →
        normalizePhoneNumber ⟨r⟩ = ⟨'0' :: '3' :: y :: z :: sub⟩) ∧
      normalizePhoneNumber "+92 300 1234567" = "03001234567" ∧
      normalizePhoneNumber "0092-300-123-4567" = "03001234567" ∧
      normalizePhoneNumber "923001234567" = "03001234567" := by
  refine ⟨fun y z sub base r hy hz hv h7 hd hb hr hl =>
    normalize_rendering_core hy hz h7 hd hb hr hl, by decide, by decide, by decide⟩

/-- C1 witness: the universally quantified part applied to the rendering
"+92 (300) 1234567" of 03001234567. -/
theorem normalize_admissible_renderings_witness :
    normalizePhoneNumber "+92 (300) 1234567" = "03001234567" := by
  have h := normalize_admissible_renderings.1 '0' '0' ['1', '2', '3', '4', '5', '6', '7']
    ('+' :: '9' :: '2' :: '3' :: '0' :: '0' :: ['1', '2', '3', '4', '5', '6', '7'])
    ("+92 (300) 1234567" : String).data (by decide) (by decide) (by decide) (by decide)
    (by decide) (by decide) (by decide) (by decide)
  exact h

/-- C2 counterexample: normalize does not check the carrier prefix; on
02001234567 (prefix 200, outside every carrier's set) the claim demands
failure, but normalize succeeds and returns the string unchanged. -/
theorem normalize_prefix_unchecked_cex :
    normalizePhoneNumber "02001234567" = "02001234567" ∧
      isValidMobilePfx 200 = false ∧
      normalizePhoneNumber "02001234567" ≠ "" := by
  refine ⟨by decide, by decide, by decide⟩

/-- C2 (amended): whenever normalize succeeds, the accepted candidate is
exactly 11 characters long, starts with a zero, and every character is an
ASCII digit or a plus sign; neither carrier-prefix membership nor the
all-digits condition is enforced by normalize (such inputs are rejected by
validate and parse instead). -/
theorem normalize_success_shape :
    ∀ s r : String, normalizePhoneNumber s = r → r ≠ "" →
      r.length = 11 ∧ startsWithL ['0'] r.data = true ∧
        ∀ c ∈ r.data, isDigitPlus c = true :=
  fun _ _ h hne => normalize_shape_core h hne

/-- C2 witness: the shape theorem applied to the accepted candidate
02001234567. -/
theorem normalize_success_shape_witness :
    ("02001234567" : String).length = 11 ∧
      startsWithL ['0'] ("02001234567" : String).data = true ∧
      ∀ c ∈ ("02001234567" : String).data, isDigitPlus c = true :=
  normalize_success_shape "02001234567" "02001234567" (by decide) (by decide)

/-- C3 counterexample: normalize does not run the Safety Filter. The input
javascript:03001234567 fails isSafePhoneInput, yet normalize succeeds on
it and returns 03001234567 instead of failing. -/
theorem normalize_skips_safety_cex :
    isSafePhoneInput "javascript:03001234567" = false ∧
      normalizePhoneNumber "javascript:03001234567" = "03001234567" ∧
      normalizePhoneNumber "javascript:03001234567" ≠ "" := by
  refine ⟨by decide, by decide, by decide⟩

/-- C3 (amended): inputs failing the Safety Filter are rejected by the
validation layer, not by normalize: for every string failing
isSafePhoneInput, parse returns none and detectOperator returns none,
while normalize itself may succeed on such inputs. -/
theorem unsafe_rejected_downstream :
    ∀ s : String, isSafePhoneInput s = false →
      parse s = none ∧ detectOperator s = none :=
  fun _ h => ⟨parse_none_of_invalid (validate_unsafe_false h),
    detectOperator_none_of_invalid (validate_unsafe_false h)⟩

/-- C3 witness: the rejection theorem applied to a vbscript: input. -/
theorem unsafe_rejected_downstream_witness :
    parse "vbscript:03001234567" = none ∧ detectOperator "vbscript:03001234567" = none :=
  unsafe_rejected_downstream "vbscript:03001234567" (by decide)

/-- C4: validate returns false for every input on which isSafePhoneInput
is false, independent of embedded digit sequences; in particular on the
two injection strings named by the claim. -/
theorem validate_rejects_unsafe_input :
    validate "<script>alert(1)</script>" = false ∧
      validate "javascript:alert(1)" = false ∧
      ∀ s : String, isSafePhoneInput s = false → validate s = false :=
  ⟨by decide, by decide, fun _ h => validate_unsafe_false h⟩

/-- C4 witness: the universal part applied to an eval( input with an
embedded valid number. -/
theorem validate_rejects_unsafe_input_witness :
    validate "eval(03001234567)" = false :=
  validate_rejects_unsafe_input.2.2 "eval(03001234567)" (by decide)

/-- C5: validate returns false whenever the sanitized, formatting-stripped
form is longer than 14 characters; every 14-character 0092+prefix+subscriber
string with a valid carrier prefix validates, 00923001234567 validates,
and the 15-character variant does not. -/
theorem validate_length_ceiling :
    (∀ s : String, 14 < (cleanFormL s.data).length → validate s = false) ∧
      (∀ (y z : Char) (sub : List Char),
        isAsciiDigit y = true → isAsciiDigit z = true →
        isValidMobilePfx (300 + 10 * (y.toNat - 48) + (z.toNat - 48)) = true →
        sub.length = 7 → (∀ c ∈ sub, isAsciiDigit c = true) →
        validate ⟨'0' :: '0' :: '9' :: '2' :: '3' :: y :: z :: sub⟩ = true) ∧
      validate "00923001234567" = true ∧ validate "009230012345678" = false := by
  refine ⟨fun s h => validate_long_false h,
    fun y z sub hy hz hv h7 hd => validate_z92Digits (valid_pre2 hy hz hv) h7 hd,
    by decide, by decide⟩

/-- C5 witness: the ceiling clause applied to a sixteen-digit input. -/
theorem validate_length_ceiling_witness :
    validate "1111111111111111" = false :=
  validate_length_ceiling.1 "1111111111111111" (by decide)

/-- C6: formatting is idempotent under re-parsing: whenever format N s1
succeeds with output F1, re-formatting F1 in any style s2 gives exactly
format N s2. -/
theorem format_idempotent_under_reparse :
    ∀ N s1 s2 F1 : String, format N s1 = Except.ok F1 → format F1 s2 = format N s2 :=
  fun _ _ _ _ h => format_reparse_core h

/-- C6 witness: applied to N = 03001234567, s1 = e164, s2 = dashes. -/
theorem format_idempotent_under_reparse_witness :
    format "03001234567" "e164" = Except.ok "+923001234567" ∧
      format "+923001234567" "dashes" = format "03001234567" "dashes" :=
  ⟨rfl, format_idempotent_under_reparse "03001234567" "e164" "dashes" "+923001234567" rfl⟩

/-- C7: for every phone input that validates and every style string that
is not one of the seven recognized styles, format does not fail and
returns exactly the national rendering. -/
theorem format_unknown_style_fallback :
    ∀ p st : String, validate p = true → st ∉ styleNames →
      format p st = format p "national" ∧ ∃ r, format p st = Except.ok r := by
  intro p st hv hst
  obtain ⟨pr, sb, hn⟩ := n2c_some_of_validate hv
  have hrend : render st pr sb = tNational pr sb := by
    simp only [styleNames, List.mem_cons, List.not_mem_nil, or_false] at hst
    push_neg at hst
    obtain ⟨n1, n2, n3, n4, n5, n6, n7⟩ := hst
    rw [render, if_neg n1, if_neg n2, if_neg n3, if_neg n4, if_neg n5, if_neg n6, if_neg n7]
  refine ⟨?_, ⟨render st pr sb⟩, format_eval hv hn⟩
  rw [format_eval hv hn, format_eval hv hn, hrend]
  rw [show render "national" pr sb = tNational pr sb from by rw [render, if_pos rfl]]

/-- C7 witness: applied to the valid number 03001234567 and the
unrecognized style name fancy. -/
theorem format_unknown_style_fallback_witness :
    format "03001234567" "fancy" = format "03001234567" "national" ∧
      ∃ r, format "03001234567" "fancy" = Except.ok r :=
  format_unknown_style_fallback "03001234567" "fancy" (by decide) (by decide)

/-- C8: replacing each ASCII digit of a valid national number with the
corresponding Urdu-Arabic digit glyph preserves validity: validate of the
Urdu rendering equals validate of the ASCII rendering, and both are true. -/
theorem urdu_rendering_preserves_validity :
    ∀ (y z : Char) (sub : List Char),
      isAsciiDigit y = true → isAsciiDigit z = true →
      isValidMobilePfx (300 + 10 * (y.toNat - 48) + (z.toNat - 48)) = true →
      sub.length = 7 → (∀ c ∈ sub, isAsciiDigit c = true) →
      validate (englishToUrduDigits ⟨'0' :: '3' :: y :: z :: sub⟩) =
          validate ⟨'0' :: '3' :: y :: z :: sub⟩ ∧
        validate ⟨'0' :: '3' :: y :: z :: sub⟩ = true := by
  intro y z sub hy hz hv h7 hd
  have hyz := valid_pre2 hy hz hv
  have hN := validate_natDigits hyz h7 hd
  have hU : validate ⟨('0' :: '3' :: y :: z :: sub).map englishToUrduChar⟩ = true :=
    validate_urdu_natDigits hyz h7 hd
  have he : englishToUrduDigits ⟨'0' :: '3' :: y :: z :: sub⟩ =
      ⟨('0' :: '3' :: y :: z :: sub).map englishToUrduChar⟩ := by
    rw [englishToUrduDigits, if_neg (by simp)]
  rw [he, hU, hN]
  exact ⟨rfl, rfl⟩

/-- C8 witness: applied to 03001234567. -/
theorem urdu_rendering_preserves_validity_witness :
    validate (englishToUrduDigits ⟨['0', '3', '0', '0', '1', '2', '3', '4', '5', '6', '7']⟩) =
        validate ⟨['0', '3', '0', '0', '1', '2', '3', '4', '5', '6', '7']⟩ ∧
      validate ⟨['0', '3', '0', '0', '1', '2', '3', '4', '5', '6', '7']⟩ = true :=
  urdu_rendering_preserves_validity '0' '0' ['1', '2', '3', '4', '5', '6', '7']
    (by decide) (by decide) (by decide) (by decide) (by decide)

/-- C9: the core predicates and parsers are total at the JS boundary:
for every non-string runtime value (null, undefined, or any other
non-string value), validate returns false, parse and detectOperator
return none, and normalize returns the empty string; no exception
escapes (the embedding is total by construction, mirroring the
guard-plus-catch structure of the sources). -/
theorem core_total_on_nonstring :
    (∀ v : JsVal, (∀ s, v ≠ JsVal.str s) →
        validateJs v = false ∧ parseJs v = none ∧ detectOperatorJs v = none ∧
          normalizeJs v = "") ∧
      validateJs JsVal.nullish = false ∧ parseJs JsVal.nullish = none ∧
      detectOperatorJs JsVal.nullish = none ∧ normalizeJs JsVal.nullish = "" := by
  refine ⟨?_, rfl, rfl, rfl, rfl⟩
  intro v hv
  cases v with
  | str s => exact absurd rfl (hv s)
  | nullish => exact ⟨rfl, rfl, rfl, rfl⟩
  | other => exact ⟨rfl, rfl, rfl, rfl⟩

/-- C9 witness: the universal part applied to a non-string value. -/
theorem core_total_on_nonstring_witness :
    validateJs JsVal.other = false ∧ parseJs JsVal.other = none ∧
      detectOperatorJs JsVal.other = none ∧ normalizeJs JsVal.other = "" :=
  core_total_on_nonstring.1 JsVal.other (fun _ h => JsVal.noConfusion h)

/-- C10: every bare ten-digit string valid-prefix+subscriber (no leading
zero, no country code) is accepted by validate (the LOOSE pattern's
optional group matches empty) but rejected by normalize (no leading zero,
empty-string failure) and therefore by parse (null). -/
theorem loose_validate_vs_normalize_gap :
    ∀ (y z : Char) (sub : List Char),
      isAsciiDigit y = true → isAsciiDigit z = true →
      isValidMobilePfx (300 + 10 * (y.toNat - 48) + (z.toNat - 48)) = true →
      sub.length = 7 → (∀ c ∈ sub, isAsciiDigit c = true) →
      validate ⟨'3' :: y :: z :: sub⟩ = true ∧
        normalizePhoneNumber ⟨'3' :: y :: z :: sub⟩ = "" ∧
        parse ⟨'3' :: y :: z :: sub⟩ = none := by
  intro y z sub hy hz hv h7 hd
  have hyz := valid_pre2 hy hz hv
  exact ⟨validate_bareDigits hyz h7 hd, normalize_bareDigits hy hz h7 hd,
    parse_bareDigits hyz h7 hd⟩

/-- C10 witness: applied to 3001234567. -/
theorem loose_validate_vs_normalize_gap_witness :
    validate ⟨['3', '0', '0', '1', '2', '3', '4', '5', '6', '7']⟩ = true ∧
      normalizePhoneNumber ⟨['3', '0', '0', '1', '2', '3', '4', '5', '6', '7']⟩ = "" ∧
      parse ⟨['3', '0', '0', '1', '2', '3', '4', '5', '6', '7']⟩ = none :=
  loose_validate_vs_normalize_gap '0' '0' ['1', '2', '3', '4', '5', '6', '7']
    (by decide) (by decide) (by decide) (by decide) (by decide)
